import Mathlib

/-!
Verification development for the json-to-struct schema-inference engine.

The definitions below are a shallow embedding of the Go sources:
  generate.go        (generator pipeline: StructStats, ProcessValue, ProcessJSON,
                      GetMostCommonType, buildTypeFromStats, mergeNestedObjects,
                      fmtFieldName and its memoized variant)
  type.go            (the Type tree and its pairwise Merge)
  extract.go         (extractRepeatedStructs, collectStructSignatures,
                      getStructSignature, createExtractedType, Copy)
  json-to-struct.go  (the legacy package-level fmtFieldName built on strings.Title)

Modelling conventions:
  - Decoded JSON values are a closed inductive (numbers as rationals; the Go
    code only compares numbers for integrality and against small integer
    bounds, which rationals model exactly for the inputs treated here).
  - A Go map[string]T is modelled as an association list in insertion order.
    Map lookup is total with the Go zero value as default.  Go map iteration
    order is unspecified; theorems that depend on an iteration order either
    quantify over all association lists representing the map or take the
    order as an explicit parameter.
  - Go string case functions are modelled per character (rune); the sources
    and claims only exercise them on ASCII data.
  - The memoization cache of the generator fmtFieldName is dropped: it only
    caches a pure function and never changes its value.
-/

namespace JsonToStruct

/-- A decoded JSON value as produced by encoding/json into interface values. -/
inductive JValue : Type where
  | null : JValue
  | bool (b : Bool) : JValue
  | num (x : Rat) : JValue
  | str (s : String) : JValue
  | arr (elems : List JValue) : JValue
  | obj (fields : List (String × JValue)) : JValue

/-- getGoType (generate.go): the Go type name for a decoded JSON value. -/
def getGoType : JValue → String
  | .null => "nil"
  | .bool _ => "bool"
  | .num _ => "float64"
  | .str _ => "string"
  | .obj _ => "struct"
  | .arr _ => "[]any"

/-- Lookup in a map[string]int modelled as an association list (absent key
reads the Go zero value 0). -/
def lookupNat : List (String × Nat) → String → Nat
  | [], _ => 0
  | p :: ps, k => if p.1 == k then p.2 else lookupNat ps k

/-- Lookup in a map[string]bool (absent key reads false). -/
def lookupBool : List (String × Bool) → String → Bool
  | [], _ => false
  | p :: ps, k => if p.1 == k then p.2 else lookupBool ps k

/-- Whether the map has an entry for the key. -/
def hasKey {B : Type} : List (String × B) → String → Bool
  | [], _ => false
  | p :: ps, k => p.1 == k || hasKey ps k

/-- m[k]++ on a map[string]int: bump the entry, else insert 1 (keys are
unique, entries kept in insertion order). -/
def bump : List (String × Nat) → String → List (String × Nat)
  | [], k => [(k, 1)]
  | p :: ps, k => if p.1 == k then (p.1, p.2 + 1) :: ps else p :: bump ps k

/-- m[k] = true on a map[string]bool. -/
def setTrue : List (String × Bool) → String → List (String × Bool)
  | [], k => [(k, true)]
  | p :: ps, k => if p.1 == k then (p.1, true) :: ps else p :: setTrue ps k

/- ---------------------------------------------------------------------
Field-name normalization (generate.go fmtFieldName, memoized variant).
--------------------------------------------------------------------- -/

/-- unicode.IsLetter, on the ASCII range the sources and claims exercise. -/
def goIsLetter (c : Char) : Bool := c.isAlpha

/-- unicode.IsDigit, on the ASCII range. -/
def goIsDigit (c : Char) : Bool := c.isDigit

/-- strings.ToLower on a rune sequence. -/
def toLowerL (l : List Char) : List Char := l.map Char.toLower

/-- strings.ToUpper on a rune sequence. -/
def toUpperL (l : List Char) : List Char := l.map Char.toUpper

/-- strings.ToLower on a whole string. -/
def toLowerStr (s : String) : String := String.mk (toLowerL s.toList)

/-- strings.Split(s, underscore): cut the rune sequence at every
underscore, keeping empty segments. -/
def splitUnderscore : List Char → List (List Char)
  | [] => [[]]
  | c :: rest =>
    let r := splitUnderscore rest
    if c = '_' then [] :: r else (c :: r.headD []) :: r.tail

/-- var uppercaseFixups = map[string]bool with id and url (generate.go). -/
def uppercaseFixups (l : List Char) : Bool :=
  l == "id".toList || l == "url".toList

/-- The per-segment title-casing of the memoized fmtFieldName:
ToUpper of the first character followed by ToLower of the rest
(generate.go lines 1283-1287). -/
def goTitleSegment : List Char → List Char
  | [] => []
  | c :: rest => c.toUpper :: rest.map Char.toLower

/-- The last-segment acronym fixup shared by all fmtFieldName variants:
if the final segment case-insensitively matches id or url, force it
uppercase. -/
def applyUppercaseFixups (parts : List (List Char)) : List (List Char) :=
  match parts.getLast? with
  | none => parts
  | some last =>
      if uppercaseFixups (toLowerL last) then parts.dropLast ++ [toUpperL last]
      else parts

/-- The final rune scrub: replace any non letter/digit (non-letter at
position 0) with an underscore. -/
def replaceInvalidRunes : List Char → List Char
  | [] => []
  | c :: rest =>
    (if goIsLetter c then c else '_') ::
      rest.map (fun d => if goIsLetter d || goIsDigit d then d else '_')

/-- fmtFieldName (generate.go lines 1269-1311, memoization dropped):
split on underscores, title-case each segment, apply the acronym fixup to
the last segment, rejoin and scrub invalid runes. -/
def fmtFieldName (s : String) : String :=
  String.mk
    (replaceInvalidRunes
      (List.flatten (applyUppercaseFixups ((splitUnderscore s.toList).map goTitleSegment))))

/- ---------------------------------------------------------------------
Legacy fmtFieldName (json-to-struct.go lines 237-260) built on the
deprecated strings.Title.
--------------------------------------------------------------------- -/

/-- isSeparator from the Go standard library strings.Title machinery.
ASCII alphanumerics and the underscore are not separators; every other
ASCII rune is.  Non-ASCII letters, digits and marks are not separators and
only Unicode spaces are; the keys treated here are ASCII, and non-ASCII
runes are modelled as non-separators. -/
def goIsSeparator (c : Char) : Bool :=
  if c.toNat ≤ 0x7F then
    !((48 ≤ c.toNat && c.toNat ≤ 57) ||    -- 0-9
      (97 ≤ c.toNat && c.toNat ≤ 122) ||   -- a-z
      (65 ≤ c.toNat && c.toNat ≤ 90) ||    -- A-Z
      c == '_')
  else
    false

/-- The scan step of strings.Title: the state is the output so far and the
previous rune. -/
def titleLegacyStep (acc : List Char × Char) (c : Char) : List Char × Char :=
  if goIsSeparator acc.2 then (acc.1 ++ [c.toUpper], c)
  else (acc.1 ++ [c], c)

/-- strings.Title: uppercase every rune that follows a separator (the scan
starts from a space). -/
def goTitleLegacy (l : List Char) : List Char :=
  (l.foldl titleLegacyStep ([], ' ')).1

/-- The legacy package-level fmtFieldName (json-to-struct.go lines 237-260):
identical to the generator variant except that segments are title-cased
with strings.Title, which preserves non-leading character case. -/
def fmtFieldNameLegacy (s : String) : String :=
  String.mk
    (replaceInvalidRunes
      (List.flatten (applyUppercaseFixups ((splitUnderscore s.toList).map goTitleLegacy))))

/- ---------------------------------------------------------------------
Sample accumulator (generate.go lines 772-937).
--------------------------------------------------------------------- -/

/-- FieldStat (generate.go lines 772-783). -/
structure FieldStat : Type where
  Name : String
  Types : List (String × Nat)
  TotalCount : Nat
  IsArray : List (String × Bool)
  JsonName : String
  NestedObjs : List JValue
  Values : List (String × Nat)
  NumericVals : List Rat
  ValueOrder : List String

/-- StructStats (generate.go lines 785-790).  Fields is a map keyed by the
normalized field name, modelled in insertion order. -/
structure StructStats : Type where
  Fields : List (String × FieldStat)
  TotalLines : Nat
  FieldOrder : List String

/-- NewStructStats (generate.go lines 844-850). -/
def NewStructStats : StructStats := ⟨[], 0, []⟩

/-- The fresh FieldStat allocated on first encounter of a field
(generate.go lines 856-867). -/
def newFieldStat (fieldName key : String) : FieldStat :=
  ⟨fieldName, [], 0, [], key, [], [], [], []⟩

/-- Apply an update to the entry stored under a field name. -/
def updateFields (fn : String) (g : FieldStat → FieldStat) :
    List (String × FieldStat) → List (String × FieldStat)
  | [] => []
  | p :: ps => if p.1 == fn then (p.1, g p.2) :: ps else p :: updateFields fn g ps

/-- Apply an update to the FieldStat stored under a field name. -/
def updateField (s : StructStats) (fn : String) (f : FieldStat → FieldStat) :
    StructStats :=
  { s with Fields := updateFields fn f s.Fields }

/-- fmt.Sprintf with percent-d of int(v) for an integral rational: the
numerator rendered in decimal. -/
def intValStr (v : Rat) : String := toString v.num

/-- The scalar-value branch bodies of ProcessValue: record a probed value
into Values/ValueOrder. -/
def probeValue (f : FieldStat) (valStr : String) : FieldStat :=
  if hasKey f.Values valStr then
    { f with Values := bump f.Values valStr }
  else
    { f with ValueOrder := f.ValueOrder ++ [valStr], Values := bump f.Values valStr }

/-- The switch body of ProcessValue (generate.go lines 872-928) applied to
the field statistics after TotalCount has been incremented. -/
def processValueBody (value : JValue) (f : FieldStat) : FieldStat :=
  match value with
  | .arr v =>
    match v with
    | v0 :: _ =>
        let elementType := getGoType v0
        let f := { f with Types := bump f.Types elementType,
                          IsArray := setTrue f.IsArray elementType }
        if elementType == "struct" then
          { f with NestedObjs := f.NestedObjs ++ [v0] }
        else f
    | [] => { f with Types := bump f.Types "any", IsArray := setTrue f.IsArray "any" }
  | .obj _ =>
      { f with Types := bump f.Types "struct", NestedObjs := f.NestedObjs ++ [value] }
  | .str v =>
      let f := { f with Types := bump f.Types "string" }
      if f.Values.length < 100 then probeValue f v else f
  | .num v =>
      let f := { f with Types := bump f.Types "float64",
                        NumericVals := f.NumericVals ++ [v] }
      if v.den == 1 && (-100 : Rat) ≤ v && v ≤ (100 : Rat) then
        probeValue f (intValStr v)
      else f
  | .bool b =>
      let f := { f with Types := bump f.Types "bool" }
      probeValue f (if b then "true" else "false")
  | .null => { f with Types := bump f.Types "nil" }

/-- ProcessValue (generate.go lines 853-928): normalize the key, allocate
the FieldStat on first encounter, bump TotalCount and dispatch on the
value kind.  The Go default case converts non-JSON host values and is
unreachable for decoded JSON. -/
def ProcessValue (s : StructStats) (key : String) (value : JValue) : StructStats :=
  let fieldName := fmtFieldName key
  let s :=
    if hasKey s.Fields fieldName then s
    else { s with Fields := s.Fields ++ [(fieldName, newFieldStat fieldName key)],
                  FieldOrder := s.FieldOrder ++ [fieldName] }
  updateField s fieldName (fun f => processValueBody value { f with TotalCount := f.TotalCount + 1 })

/-- ProcessJSON (generate.go lines 931-937): bump the sample count and feed
every key/value pair of the object to ProcessValue.  The pair list order
models the unspecified Go map iteration order. -/
def ProcessJSON (s : StructStats) (data : List (String × JValue)) : StructStats :=
  let s := { s with TotalLines := s.TotalLines + 1 }
  data.foldl (fun s kv => ProcessValue s kv.1 kv.2) s

/-- The loop body of GetMostCommonType: the running state is
(maxType, maxCount, hasNil). -/
def mctStep (acc : String × Nat × Bool) (p : String × Nat) : String × Nat × Bool :=
  if p.1 == "nil" then (acc.1, acc.2.1, true)
  else if p.2 > acc.2.1 then (p.1, p.2, acc.2.2)
  else acc

/-- GetMostCommonType (generate.go lines 962-986) over one iteration order
of the Types map: track the strict running maximum among non-nil entries
and whether a nil entry was seen; pointer-mark the result when both a nil
entry and a dominant type exist; fall back to any. -/
def GetMostCommonType (types : List (String × Nat)) : String :=
  let acc := types.foldl mctStep ("", 0, false)
  let maxType := acc.1
  let hasNil := acc.2.2
  if hasNil && maxType != "" then "*" ++ maxType
  else if maxType == "" then "any" else maxType

/- ---------------------------------------------------------------------
The resolved type tree (type.go lines 19-28).  The Go field Type is named
TypeStr here because Type is reserved in Lean; Config and Stat carry no
information the verified claims depend on and are dropped.
--------------------------------------------------------------------- -/

inductive GoType : Type where
  | mk (Name : String) (TypeStr : String) (Repeated : Bool)
       (Tags : List (String × String)) (Children : List GoType)
       (ExtractedTypeName : String)

def GoType.Name : GoType → String
  | .mk n _ _ _ _ _ => n

def GoType.TypeStr : GoType → String
  | .mk _ ty _ _ _ _ => ty

def GoType.Repeated : GoType → Bool
  | .mk _ _ r _ _ _ => r

def GoType.Tags : GoType → List (String × String)
  | .mk _ _ _ tg _ _ => tg

def GoType.Children : GoType → List GoType
  | .mk _ _ _ _ cs _ => cs

def GoType.ExtractedTypeName : GoType → String
  | .mk _ _ _ _ _ e => e

def GoType.withTypeStr : GoType → String → GoType
  | .mk n _ r tg cs e, ty => .mk n ty r tg cs e

def GoType.withChildren : GoType → List GoType → GoType
  | .mk n ty r tg _ e, cs => .mk n ty r tg cs e

/-- strings.Trim(s, asterisk): drop leading and trailing asterisk runes. -/
def trimStar (s : String) : String :=
  String.mk
    (((s.toList.dropWhile (fun c => c == '*')).reverse.dropWhile
        (fun c => c == '*')).reverse)

/-- Whether some child carries the given name (the fields map of Merge has
an entry exactly for the child names). -/
def hasName (l : List GoType) (nm : String) : Bool :=
  l.any (fun c => c.Name == nm)

def updateFirstNamed (f : GoType → GoType) (nm : String) : List GoType → List GoType
  | [] => []
  | c :: cs => if c.Name == nm then f c :: cs else c :: updateFirstNamed f nm cs

/-- Update the last child with the given name: the fields map of Merge is
built front to back, so on duplicate names the pointer stored in the map
is the last occurrence. -/
def updateLastNamed (f : GoType → GoType) (nm : String) (l : List GoType) : List GoType :=
  (updateFirstNamed f nm l.reverse).reverse

/-- Merge (type.go lines 185-227).  The Go function returns an error value,
but no base case ever produces one - errors only wrap errors of child
merges - so the function is total and is embedded without the error
channel.  On a trimmed-type mismatch: a nil receiver absorbs the argument
pointer-marked (copying children only from a plain struct), a nil argument
pointer-marks the receiver, and otherwise the receiver degrades to any.
On matching trimmed types the argument children are merged into the
receiver children by name, new names appended. -/
def Merge (t : GoType) : GoType → GoType
  | .mk _ ty2 _ _ cs2 _ =>
    if trimStar t.TypeStr ≠ trimStar ty2 then
      if t.TypeStr == "nil" then
        if ty2 == "struct" then (t.withTypeStr "*struct").withChildren cs2
        else t.withTypeStr ("*" ++ trimStar ty2)
      else if ty2 == "nil" then
        if t.TypeStr == "struct" then t.withTypeStr "*struct"
        else t.withTypeStr ("*" ++ trimStar t.TypeStr)
      else t.withTypeStr "any"
    else
      t.withChildren (cs2.attach.foldl
        (fun acc c2 =>
          if hasName t.Children c2.1.Name then
            updateLastNamed (fun c => Merge c c2.1) c2.1.Name acc
          else acc ++ [c2.1])
        t.Children)
termination_by t2 => sizeOf t2
decreasing_by
  have h := List.sizeOf_lt_of_mem c2.2
  simp only [GoType.mk.sizeOf_spec]
  omega

/- ---------------------------------------------------------------------
Type resolution from accumulated statistics
(generate.go lines 1124-1239 and 1362-1381).
--------------------------------------------------------------------- -/

/-- The generator configuration fields the resolver reads.  The remaining
Go fields (package name, templates, streaming and comment options, the
field-name cache) only affect rendering or performance. -/
structure generator : Type where
  TypeName : String
  FieldOrder : String

/-- The per-field sort records of buildTypeFromStats (name, original JSON
key, occurrence count, first-encounter index). -/
structure fieldInfo : Type where
  name : String
  jsonName : String
  count : Nat
  order : Nat

/-- Lexicographic comparison of rune sequences by code point, the order
Go uses for strings (byte-wise, which agrees rune-wise on ASCII). -/
def charListLe : List Char → List Char → Bool
  | [], _ => true
  | _ :: _, [] => false
  | a :: as, b :: bs =>
    if a.toNat < b.toNat then true
    else if b.toNat < a.toNat then false
    else charListLe as bs

/-- Go string less-or-equal. -/
def strLe (a b : String) : Bool := charListLe a.toList b.toList

/-- Whether the first rune sequence leads the second. -/
def leadMatch : List Char → List Char → Bool
  | [], _ => true
  | _ :: _, [] => false
  | a :: as, b :: bs => (a == b) && leadMatch as bs

/-- strings.HasPrefix. -/
def strStartsWith (s p : String) : Bool := leadMatch p.toList s.toList

/-- strings.HasSuffix. -/
def strEndsWith (s p : String) : Bool :=
  leadMatch p.toList.reverse s.toList.reverse

/-- Insert into a sorted list under a total preorder. -/
def insertBy {α : Type} (le : α → α → Bool) (a : α) : List α → List α
  | [] => [a]
  | b :: bs => if le a b then a :: b :: bs else b :: insertBy le a bs

/-- Insertion sort under a total preorder: the comparison-sort model of
the Go sort calls.  sort.Slice is an unstable sort, so the model agrees
with it whenever the comparator admits no ties; sort.Strings sorts a
string slice where the order of equal elements is unobservable. -/
def sortBy {α : Type} (le : α → α → Bool) : List α → List α
  | [] => []
  | a :: as => insertBy le a (sortBy le as)

/-- The sort.Slice comparators of buildTypeFromStats (lines 1157-1185),
turned into total preorders: le a b is the negation of less b a. -/
def sortFields (mode : String) (fields : List fieldInfo) : List fieldInfo :=
  match mode with
  | "encounter" => sortBy (fun a b => decide (a.order ≤ b.order)) fields
  | "rare-first" => sortBy (fun a b =>
      if a.count ≠ b.count then decide (a.count < b.count) else decide (a.order ≤ b.order)) fields
  | "common-first" => sortBy (fun a b =>
      if a.count ≠ b.count then decide (b.count < a.count) else decide (a.order ≤ b.order)) fields
  | _ => sortBy (fun a b =>
      strLe (toLowerStr a.jsonName) (toLowerStr b.jsonName)) fields

/-- stats.Fields[fieldName] for a name that is present in the map (the
resolver only looks up names it read from the map). -/
def lookupField : List (String × FieldStat) → String → FieldStat
  | [], _ => newFieldStat "" ""
  | p :: ps, k => if p.1 == k then p.2 else lookupField ps k

/-- mergeNestedObjects (generate.go lines 1362-1381) with the recursive
resolver call abstracted: re-accumulate the captured nested objects into
fresh statistics and resolve them. -/
def mergeNestedObjectsAux (recurse : StructStats → GoType) (objs : List JValue) :
    List GoType :=
  if objs.isEmpty then []
  else
    let nestedStats := objs.foldl
      (fun s o => match o with
        | .obj fs => ProcessJSON s fs
        | _ => s)
      NewStructStats
    (recurse nestedStats).Children

/-- The loop body of buildTypeFromStats for one field (lines 1192-1234),
with the recursive resolver call abstracted: take the dominant type,
override it with the first array-seen type with a positive count (IsArray
in one iteration order of the map), recurse into captured nested objects
for record fields, and tag renamed fields. -/
def resolveFieldAux (recurse : StructStats → GoType) (stat : FieldStat) : GoType :=
  let mostCommonType := GetMostCommonType stat.Types
  let arrHit := stat.IsArray.find? (fun p =>
    decide (0 < lookupNat stat.Types p.1) && p.2)
  let isArray := arrHit.isSome
  let baseTy :=
    match arrHit with
    | some p => p.1
    | none => mostCommonType
  let children :=
    if baseTy == "struct" && decide (0 < stat.NestedObjs.length) then
      mergeNestedObjectsAux recurse stat.NestedObjs
    else []
  let tags : List (String × String) :=
    if stat.Name ≠ stat.JsonName then [("json", stat.JsonName)] else []
  GoType.mk stat.Name baseTy isArray tags children ""

/-- buildTypeFromStats (generate.go lines 1124-1239): sort the field stats
by the configured ordering and resolve each field.  Nested recursion
through mergeNestedObjects is metered by fuel (the Go recursion
terminates because captured nested objects are strict subvalues). -/
def buildTypeFromStats : Nat → generator → StructStats → GoType
  | 0, g, _ => GoType.mk g.TypeName "struct" false [] [] ""
  | fuel + 1, g, stats =>
    let fields := stats.Fields.map (fun p =>
      fieldInfo.mk p.1 p.2.JsonName p.2.TotalCount (stats.FieldOrder.indexOf p.1))
    let sorted := sortFields g.FieldOrder fields
    let children := sorted.map (fun fi =>
      resolveFieldAux (buildTypeFromStats fuel g) (lookupField stats.Fields fi.name))
    GoType.mk g.TypeName "struct" false [] children ""

/-- resolveField at a given nesting budget. -/
def resolveField (fuel : Nat) (g : generator) (stat : FieldStat) : GoType :=
  resolveFieldAux (buildTypeFromStats fuel g) stat

/-- mergeNestedObjects at a given nesting budget. -/
def mergeNestedObjects (fuel : Nat) (g : generator) (objs : List JValue) :
    List GoType :=
  mergeNestedObjectsAux (buildTypeFromStats fuel g) objs

/- ---------------------------------------------------------------------
The accumulation and validation phase of generate
(generate.go lines 1004-1064).
--------------------------------------------------------------------- -/

/-- What the decoding front end of generate hands to the accumulation
loop: blank input, a successfully decoded document, or the per-line decode
results of the NDJSON fallback (none for a line that did not decode to an
object). -/
inductive DecodedInput : Type where
  | empty : DecodedInput
  | parsed (v : JValue) : DecodedInput
  | ndjson (lines : List (Option (List (String × JValue)))) : DecodedInput

/-- The accumulation and validation phase of generate (lines 1004-1064):
process the decoded samples and fail on blank input, on an unsupported
top-level value, on an NDJSON fallback with no valid line, and on a run
that accumulated zero samples.  The Go case for a top-level array of maps
cannot be produced by decoding into an interface value and is dead.
Rendering and formatting of the resolved tree happen after this phase. -/
def accumulate : DecodedInput → Except String StructStats
  | .empty => .error "no input provided"
  | .parsed v =>
    match v with
    | .obj fields => validate (ProcessJSON NewStructStats fields)
    | .arr items =>
        validate (items.foldl
          (fun s it => match it with
            | .obj fs => ProcessJSON s fs
            | _ => s)
          NewStructStats)
    | _ => .error "unsupported JSON structure"
  | .ndjson lines =>
      let s := lines.foldl
        (fun s l => match l with
          | some fs => ProcessJSON s fs
          | none => s)
        NewStructStats
      if lines.any (fun l => l.isSome) then validate s
      else .error "error parsing JSON"
where
  /-- The zero-sample check at lines 1062-1064. -/
  validate (s : StructStats) : Except String StructStats :=
    if s.TotalLines == 0 then .error "no valid JSON objects found" else .ok s

/-- The number of object samples the accumulation phase feeds to
ProcessJSON, used to state the claim that generate fails exactly when it
is zero. -/
def samplesOf : DecodedInput → Nat
  | .empty => 0
  | .parsed v =>
    match v with
    | .obj _ => 1
    | .arr items => items.countP (fun it => match it with | .obj _ => true | _ => false)
    | _ => 0
  | .ndjson lines => lines.countP (fun l => l.isSome)

/- ---------------------------------------------------------------------
The struct-extraction pass (extract.go).  The pass mutates Type nodes in
place through pointers collected during the signature census, so it is
embedded arena-style: nodes live in an arena indexed by number, child
links are indices, and a rewrite is an arena update.  Extracted shared
definitions are fresh deep copies and are materialized as plain trees.
generateStructName hashes the signature with md5 and prints 8 hex digits;
the hash is opaque to every claim and is passed in as a parameter.
--------------------------------------------------------------------- -/

/-- A Type node as seen by the extraction pass (tags and statistics are
never read or written by it). -/
structure ExNode : Type where
  Name : String
  TypeStr : String
  Repeated : Bool
  ExtractedTypeName : String
  Children : List Nat
deriving DecidableEq, Repr

instance : Inhabited ExNode := ⟨⟨"", "", false, "", []⟩⟩

/-- Read an arena slot (every index the pass touches is in range). -/
def getNode (arena : List ExNode) (i : Nat) : ExNode := arena.getD i default

/-- getStructSignature (extract.go lines 80-105): the sorted, joined
name:type field pairs (array-ness folded in); empty for non-records,
childless records, and plain records with fewer than 3 fields. -/
def getStructSignature (arena : List ExNode) (t : ExNode) : String :=
  if (t.TypeStr ≠ "struct" && t.TypeStr ≠ "*struct") || t.Children.isEmpty then ""
  else
    let fields := t.Children.map (fun i =>
      let c := getNode arena i
      let fieldSig := c.Name ++ ":" ++ c.TypeStr
      if c.Repeated then "[]" ++ fieldSig else fieldSig)
    let sortedFields := sortBy strLe fields
    let signature := String.intercalate "," sortedFields
    if t.TypeStr ≠ "*struct" && fields.length < 3 then "" else signature

/-- collectStructSignatures (extract.go lines 50-77) as the chronological
list of map insertions: each record node with children contributes its
plain signature, a nullable record additionally contributes the
:nullable-suffixed signature, then the children are walked in order.
Fuel meters the walk depth (the Go trees are finite and acyclic). -/
def collectSigsAux (arena : List ExNode) : Nat → Nat → List (String × Nat)
  | 0, _ => []
  | fuel + 1, i =>
    let t := getNode arena i
    let plainIns :=
      if (t.TypeStr == "struct" || t.TypeStr == "*struct") && !t.Children.isEmpty then
        let sig := getStructSignature arena t
        if sig ≠ "" then [(sig, i)] else []
      else []
    let nullableIns :=
      if t.TypeStr == "*struct" && !t.Children.isEmpty then
        let sig := getStructSignature arena t ++ ":nullable"
        if sig ≠ "" then [(sig, i)] else []
      else []
    plainIns ++ nullableIns ++ t.Children.flatMap (fun c => collectSigsAux arena fuel c)

/-- The structMap of extractRepeatedStructs: group the census insertions
by signature, appending members in insertion order. -/
def groupSigs (ins : List (String × Nat)) : List (String × List Nat) :=
  ins.foldl
    (fun m p =>
      if hasKey m p.1 then
        m.map (fun q => if q.1 == p.1 then (q.1, q.2 ++ [p.2]) else q)
      else m ++ [(p.1, [p.2])])
    []

/-- An extracted shared definition: a fresh tree of copied nodes
(extract.go Copy, lines 176-205, restricted to the fields the pass
reads). -/
inductive ExTree : Type where
  | mk (Name : String) (TypeStr : String) (Repeated : Bool)
       (ExtractedTypeName : String) (Children : List ExTree)

def ExTree.Name : ExTree → String
  | .mk n _ _ _ _ => n

/-- Copy (extract.go lines 176-205): deep copy of an arena subtree into a
fresh tree. -/
def copyTree (arena : List ExNode) : Nat → Nat → ExTree
  | 0, _ => .mk "" "" false "" []
  | fuel + 1, i =>
    let t := getNode arena i
    .mk t.Name t.TypeStr t.Repeated t.ExtractedTypeName
      (t.Children.map (fun c => copyTree arena fuel c))

/-- hasCommonPrefix (extract.go lines 159-173): at least 80 percent of the
field names start with the candidate.  Go compares in float64; the exact
rational comparison used here agrees away from representability edges of
0.8, and the claims exercise it only at count zero. -/
def hasCommonPrefixFn (names : List String) (pfx : String) : Bool :=
  if names.isEmpty then false
  else
    let count := names.countP (fun n => strStartsWith n pfx)
    decide (count * 5 ≥ names.length * 4)

/-- generateStructName (extract.go lines 134-156): root-name prefix, the
semantic Stat name when the fields share the St prefix, else the
signature-hash fallback. -/
def generateStructName (nameHash : String → String) (tn : String)
    (arena : List ExNode) (t : ExNode) (signature : String) : String :=
  let pfx := if tn == "" then "Foo" else tn
  if !t.Children.isEmpty &&
      hasCommonPrefixFn (t.Children.map (fun i => (getNode arena i).Name)) "St" then
    pfx ++ "Stat"
  else
    pfx ++ "Struct" ++ nameHash signature

/-- createExtractedType (extract.go lines 107-131): refuse nodes that are
no longer records, otherwise deep-copy the children into a new named
plain-record definition. -/
def createExtractedType (nameHash : String → String) (tn : String)
    (arena : List ExNode) (fuel : Nat) (i : Nat) (signature : String) : Option ExTree :=
  let t := getNode arena i
  if t.TypeStr ≠ "struct" && t.TypeStr ≠ "*struct" then none
  else
    let name := generateStructName nameHash tn arena t signature
    some (.mk name "struct" false "" (t.Children.map (fun c => copyTree arena fuel c)))

/-- The member rewrite of extractRepeatedStructs (lines 33-43): point the
node at the shared definition (pointer-marked for nullable records) and
clear its children. -/
def rewriteNode (name : String) (n : ExNode) : ExNode :=
  if n.TypeStr == "*struct" then
    { n with ExtractedTypeName := "*" ++ name, TypeStr := "*" ++ name, Children := [] }
  else
    { n with ExtractedTypeName := name, TypeStr := name, Children := [] }

/-- g.extractedTypes[name] = ext (map insert with overwrite). -/
def mapSetTree (m : List (String × ExTree)) (k : String) (v : ExTree) :
    List (String × ExTree) :=
  if hasKey m k then m.map (fun q => if q.1 == k then (q.1, v) else q)
  else m ++ [(k, v)]

/-- One iteration of the extraction loop (extract.go lines 23-46) over a
signature group. -/
def processGroup (nameHash : String → String) (tn : String) (fuel : Nat)
    (st : List ExNode × List (String × ExTree)) (grp : String × List Nat) :
    List ExNode × List (String × ExTree) :=
  let arena := st.1
  let extracted := st.2
  if decide (grp.2.length > 1) || strEndsWith grp.1 ":nullable" then
    match grp.2 with
    | [] => st
    | i0 :: _ =>
      match createExtractedType nameHash tn arena fuel i0 grp.1 with
      | none => st
      | some ext =>
        let arena' := grp.2.foldl
          (fun a i => a.set i (rewriteNode ext.Name (getNode a i))) arena
        (arena', mapSetTree extracted ext.Name ext)
  else st

/-- extractRepeatedStructs (extract.go lines 11-47): census, then rewrite
group by group.  The Go loop iterates the signature map in unspecified
order; the order is the procOrder parameter, constrained in theorems to a
permutation of the grouped census. -/
def extractRepeatedStructs (nameHash : String → String) (tn : String) (fuel : Nat)
    (arena : List ExNode) (procOrder : List (String × List Nat)) :
    List ExNode × List (String × ExTree) :=
  procOrder.foldl (processGroup nameHash tn fuel) (arena, [])

/- ---------------------------------------------------------------------
Projection helpers used by the theorems.
--------------------------------------------------------------------- -/

/-- The step of the child-merge loop of Merge, with the membership test
against the original receiver children. -/
def mergeChildStep (cs0 : List GoType) (acc : List GoType) (c2 : GoType) :
    List GoType :=
  if hasName cs0 c2.Name then updateLastNamed (fun c => Merge c c2) c2.Name acc
  else acc ++ [c2]

/-- The class of key segments on which the two title casings coincide:
empty, or a letter/digit head followed by lowercase letters and digits. -/
def segOkB (seg : List Char) : Bool :=
  match seg with
  | [] => true
  | c :: rest => (c.isAlpha || c.isDigit) && rest.all (fun d => d.isLower || d.isDigit)

/-- The per-type count recorded for a field (zero when the field or type
was never seen). -/
def fieldTypesLookup (s : StructStats) (fn tn : String) : Nat :=
  lookupNat (lookupField s.Fields fn).Types tn

/-- The array-seen flag recorded for a field and type. -/
def fieldIsArrayLookup (s : StructStats) (fn tn : String) : Bool :=
  lookupBool (lookupField s.Fields fn).IsArray tn

/-- The captured nested objects of a field. -/
def fieldNested (s : StructStats) (fn : String) : List JValue :=
  (lookupField s.Fields fn).NestedObjs

/-- The total occurrence count of a field. -/
def fieldTotal (s : StructStats) (fn : String) : Nat :=
  (lookupField s.Fields fn).TotalCount

/-- The cardinality probe of a field. -/
def fieldValues (s : StructStats) (fn : String) : List (String × Nat) :=
  (lookupField s.Fields fn).Values

/-- The first-seen order of the probed values of a field. -/
def fieldValueOrder (s : StructStats) (fn : String) : List String :=
  (lookupField s.Fields fn).ValueOrder

/-- Process a flat observation sequence (each element one key/value pair
fed to ProcessValue). -/
def processObsList (s : StructStats) (obs : List (String × JValue)) : StructStats :=
  obs.foldl (fun s kv => ProcessValue s kv.1 kv.2) s

/-- Whether a decoded value is an array. -/
def isArrValue : JValue → Bool
  | .arr _ => true
  | _ => false

/-- The type-count key one ProcessValue observation bumps: arrays are
classified by their first element (empty arrays as any), everything else
by its own kind. -/
def obsType : JValue → String
  | .arr (v0 :: _) => getGoType v0
  | .arr [] => "any"
  | v => getGoType v

/-- The nested objects one ProcessValue observation appends: the whole
value for an object, the first element of an array of records, nothing
otherwise. -/
def nestedDelta : JValue → List JValue
  | .arr (v0 :: _) => if getGoType v0 == "struct" then [v0] else []
  | .obj fs => [.obj fs]
  | _ => []

/-- A whole run: fold every sample through ProcessJSON starting from
fresh statistics. -/
def processRun (runs : List (List (String × JValue))) : StructStats :=
  runs.foldl ProcessJSON NewStructStats

/-- The FieldStat that ProcessValue reads for its key after the
first-encounter registration: the stored one, or the fresh one. -/
def statOf (s : StructStats) (key : String) : FieldStat :=
  if hasKey s.Fields (fmtFieldName key) then lookupField s.Fields (fmtFieldName key)
  else newFieldStat (fmtFieldName key) key

/-- The two-sample runs of the C6 nondeterminism exhibit: the same two
NDJSON samples in the two orders. -/
def c6run1 : StructStats :=
  ProcessJSON (ProcessJSON NewStructStats [("f", .arr [.str "a"])]) [("f", .arr [.num 1])]

def c6run2 : StructStats :=
  ProcessJSON (ProcessJSON NewStructStats [("f", .arr [.num 1])]) [("f", .arr [.str "a"])]

/-- Whether a decoded value is a string. -/
def isStrValue : JValue → Bool
  | .str _ => true
  | _ => false

/-- The 101 distinct small-integer observations of the C8 counterexample. -/
def c8obs : List (String × JValue) :=
  (List.range 101).map (fun n => ("v", JValue.num n))

/-- The mixed array/scalar run of the C9 counterexample. -/
def c9run : StructStats :=
  ProcessJSON (ProcessJSON NewStructStats [("f", .arr [.str "a"])]) [("f", .num 1)]

/-- The C4 exhibit arena: a root record whose children are a nullable
record P and a plain record S with the same three string fields. -/
def c4arena : List ExNode := [
  ⟨"Root", "struct", false, "", [1, 5]⟩,
  ⟨"P", "*struct", false, "", [2, 3, 4]⟩,
  ⟨"A", "string", false, "", []⟩,
  ⟨"B", "string", false, "", []⟩,
  ⟨"C", "string", false, "", []⟩,
  ⟨"S", "struct", false, "", [6, 7, 8]⟩,
  ⟨"A", "string", false, "", []⟩,
  ⟨"B", "string", false, "", []⟩,
  ⟨"C", "string", false, "", []⟩]

/-- A stand-in for the 8-hex-digit md5 suffix of generateStructName (the
claims do not depend on the hash text). -/
def c4hash : String → String := fun _ => "CAFE0001"

/-- The shared field signature of P and S. -/
def c4sig : String := "A:string,B:string,C:string"

/-- The adverse iteration order of the signature map: the nullable group
first, then the plain group. -/
def c4adverse : List (String × List Nat) :=
  [(c4sig ++ ":nullable", [1]), (c4sig, [1, 5])]

/- =====================================================================
Theorems.
===================================================================== -/

/- C1 helpers: behavior of the GetMostCommonType fold. -/

theorem mctStep_hasNil_mono (l : List (String × Nat)) :
    ∀ acc : String × Nat × Bool, acc.2.2 = true → (l.foldl mctStep acc).2.2 = true := by
  induction l with
  | nil => intro acc h; exact h
  | cons p l ih =>
    intro acc h
    simp only [List.foldl_cons]
    apply ih
    unfold mctStep
    split
    · rfl
    · split
      · exact h
      · exact h

theorem mctStep_hasNil_of_mem {l : List (String × Nat)} {cn : Nat}
    (h : ("nil", cn) ∈ l) :
    ∀ acc : String × Nat × Bool, (l.foldl mctStep acc).2.2 = true := by
  induction l with
  | nil => cases h
  | cons p l ih =>
    intro acc
    rcases List.mem_cons.1 h with h1 | h2
    · subst h1
      simp only [List.foldl_cons]
      apply mctStep_hasNil_mono
      simp [mctStep]
    · exact ih h2 _

theorem mctStep_string_max {cs : Nat} :
    ∀ (l : List (String × Nat)) (acc : String × Nat × Bool),
    (∀ p ∈ l, p.1 ≠ "nil" → p.1 ≠ "string" → p.2 < cs) →
    ((acc.1 = "string" ∧ cs ≤ acc.2.1) ∨ (acc.2.1 < cs ∧ ("string", cs) ∈ l)) →
    (l.foldl mctStep acc).1 = "string" := by
  intro l
  induction l with
  | nil =>
    intro acc _ hP
    rcases hP with ⟨h1, _⟩ | ⟨_, h2⟩
    · exact h1
    · cases h2
  | cons p l ih =>
    intro acc hb hP
    simp only [List.foldl_cons]
    refine ih _ (fun q hq h1 h2 => hb q (List.mem_cons_of_mem _ hq) h1 h2) ?_
    by_cases hnil : p.1 = "nil"
    · have hstep : mctStep acc p = (acc.1, acc.2.1, true) := by
        simp [mctStep, hnil]
      rw [hstep]
      rcases hP with ⟨h1, h2⟩ | ⟨h1, h2⟩
      · exact Or.inl ⟨h1, h2⟩
      · rcases List.mem_cons.1 h2 with h3 | h3
        · exfalso
          have : p.1 = "string" := by rw [← h3]
          simp [hnil] at this
        · exact Or.inr ⟨h1, h3⟩
    · by_cases hgt : p.2 > acc.2.1
      · have hstep : mctStep acc p = (p.1, p.2, acc.2.2) := by
          simp [mctStep, hnil, hgt]
        rw [hstep]
        rcases hP with ⟨h1, h2⟩ | ⟨h1, h2⟩
        · by_cases hstr : p.1 = "string"
          · exact Or.inl ⟨hstr, le_of_lt (lt_of_le_of_lt h2 hgt)⟩
          · exfalso
            have hlt := hb p (List.mem_cons_self _ _) hnil hstr
            omega
        · rcases List.mem_cons.1 h2 with h3 | h3
          · have hp1 : p.1 = "string" := by rw [← h3]
            have hp2 : p.2 = cs := by rw [← h3]
            exact Or.inl ⟨hp1, le_of_eq hp2.symm⟩
          · by_cases hstr : p.1 = "string"
            · by_cases hge : cs ≤ p.2
              · exact Or.inl ⟨hstr, hge⟩
              · refine Or.inr ⟨?_, h3⟩
                show p.2 < cs
                omega
            · have hlt := hb p (List.mem_cons_self _ _) hnil hstr
              exact Or.inr ⟨hlt, h3⟩
      · have hstep : mctStep acc p = acc := by
          simp [mctStep, hnil, hgt]
        rw [hstep]
        rcases hP with ⟨h1, h2⟩ | ⟨h1, h2⟩
        · exact Or.inl ⟨h1, h2⟩
        · rcases List.mem_cons.1 h2 with h3 | h3
          · exfalso
            have hp2 : p.2 = cs := by rw [← h3]
            omega
          · exact Or.inr ⟨h1, h3⟩

theorem mctStep_all_nil :
    ∀ (l : List (String × Nat)) (acc : String × Nat × Bool),
    (∀ p ∈ l, p.1 = "nil") → acc.1 = "" → acc.2.1 = 0 →
    (l.foldl mctStep acc).1 = "" := by
  intro l
  induction l with
  | nil => intro acc _ h1 _; exact h1
  | cons p l ih =>
    intro acc hnil h1 h2
    simp only [List.foldl_cons]
    have hp := hnil p (List.mem_cons_self _ _)
    have hstep : mctStep acc p = (acc.1, acc.2.1, true) := by
      simp [mctStep, hp]
    rw [hstep]
    exact ih _ (fun q hq => hnil q (List.mem_cons_of_mem _ hq)) h1 h2

/-- Claim C1: a field whose per-type counts contain a null observation and
whose strictly highest-count non-null type is string resolves to the
pointer-marked nullable string; a field whose counted observations are
null only resolves to any.  Quantifying over the association list covers
every iteration order of the Go Types map. -/
theorem claim_C1 :
    (∀ (ts : List (String × Nat)) (cn cs : Nat),
        ("nil", cn) ∈ ts → 0 < cn → ("string", cs) ∈ ts → 0 < cs →
        (∀ p ∈ ts, p.1 ≠ "nil" → p.1 ≠ "string" → p.2 < cs) →
        GetMostCommonType ts = "*string") ∧
    (∀ ts : List (String × Nat), ts ≠ [] → (∀ p ∈ ts, p.1 = "nil") →
        GetMostCommonType ts = "any") := by
  constructor
  · intro ts cn cs hnil hcn hstr hcs hmax
    have h1 : (ts.foldl mctStep ("", 0, false)).2.2 = true :=
      mctStep_hasNil_of_mem hnil _
    have h2 : (ts.foldl mctStep ("", 0, false)).1 = "string" :=
      mctStep_string_max ts _ hmax (Or.inr ⟨hcs, hstr⟩)
    unfold GetMostCommonType
    simp [h1, h2]
  · intro ts _ hnil
    have h2 : (ts.foldl mctStep ("", 0, false)).1 = "" :=
      mctStep_all_nil ts _ hnil rfl rfl
    unfold GetMostCommonType
    simp [h2]

/-- Witness for C1 at concrete type histograms. -/
theorem claim_C1_witness :
    GetMostCommonType [("nil", 1), ("string", 2), ("bool", 1)] = "*string" ∧
    GetMostCommonType [("nil", 3)] = "any" := by
  constructor
  · exact claim_C1.1 [("nil", 1), ("string", 2), ("bool", 1)] 1 2
      (by simp) (by decide) (by simp) (by decide)
      (by intro p hp h1 h2; fin_cases hp <;> simp_all)
  · exact claim_C1.2 [("nil", 3)] (by simp) (by intro p hp; fin_cases hp <;> simp)

/- C7 helpers: the case maps fix every non-letter rune pointwise, the
split only forgets runes, and the scrub sends non-alphanumerics to
underscores. -/

theorem toUpper_eq_of_not_alpha {c : Char} (h : c.isAlpha = false) : c.toUpper = c := by
  have hn : ¬(97 ≤ c.toNat ∧ c.toNat ≤ 122) := by
    simp [Char.isAlpha, Char.isLower, Char.isUpper, UInt32.le_def, UInt32.lt_def,
      BitVec.le_def, BitVec.lt_def] at h
    unfold Char.toNat UInt32.toNat
    intro hc
    obtain ⟨h1, h2⟩ := hc
    omega
  unfold Char.toUpper
  simp only []
  exact if_neg hn

theorem toLower_eq_of_not_alpha {c : Char} (h : c.isAlpha = false) : c.toLower = c := by
  have hn : ¬(65 ≤ c.toNat ∧ c.toNat ≤ 90) := by
    simp [Char.isAlpha, Char.isLower, Char.isUpper, UInt32.le_def, UInt32.lt_def,
      BitVec.le_def, BitVec.lt_def] at h
    unfold Char.toNat UInt32.toNat
    intro hc
    obtain ⟨h1, h2⟩ := hc
    omega
  unfold Char.toLower
  simp only []
  exact if_neg hn

theorem splitUnderscore_ne_nil (l : List Char) : splitUnderscore l ≠ [] := by
  cases l with
  | nil => simp [splitUnderscore]
  | cons c rest =>
    simp only [splitUnderscore]
    split
    · simp
    · simp

theorem mem_of_mem_splitUnderscore :
    ∀ (l : List Char) (seg : List Char), seg ∈ splitUnderscore l →
    ∀ c ∈ seg, c ∈ l := by
  intro l
  induction l with
  | nil =>
    intro seg hseg c hc
    simp [splitUnderscore] at hseg
    subst hseg
    cases hc
  | cons a rest ih =>
    intro seg hseg c hc
    obtain ⟨seg0, segs, hsp⟩ :
        ∃ seg0 segs, splitUnderscore rest = seg0 :: segs := by
      cases h : splitUnderscore rest with
      | nil => exact absurd h (splitUnderscore_ne_nil rest)
      | cons s ss => exact ⟨s, ss, rfl⟩
    simp only [splitUnderscore, hsp] at hseg
    by_cases ha : a = '_'
    · rw [if_pos ha] at hseg
      rcases List.mem_cons.1 hseg with h1 | h2
      · subst h1; cases hc
      · refine List.mem_cons_of_mem _ (ih seg ?_ c hc)
        rw [hsp]; exact h2
    · rw [if_neg ha] at hseg
      simp only [List.headD_cons, List.tail_cons] at hseg
      rcases List.mem_cons.1 hseg with h1 | h2
      · subst h1
        rcases List.mem_cons.1 hc with h3 | h4
        · subst h3; exact List.mem_cons_self _ _
        · refine List.mem_cons_of_mem _ (ih seg0 ?_ c h4)
          rw [hsp]; exact List.mem_cons_self _ _
      · refine List.mem_cons_of_mem _ (ih seg ?_ c hc)
        rw [hsp]; exact List.mem_cons_of_mem _ h2

/-- All-non-alphanumeric rune lists are preserved by the title casing. -/
theorem goTitleSegment_nonalnum {seg : List Char}
    (h : ∀ c ∈ seg, c.isAlpha = false ∧ c.isDigit = false) :
    ∀ c ∈ goTitleSegment seg, c.isAlpha = false ∧ c.isDigit = false := by
  cases seg with
  | nil => intro c hc; cases hc
  | cons a rest =>
    intro c hc
    rcases List.mem_cons.1 hc with h1 | h2
    · subst h1
      have ha := h a (List.mem_cons_self _ _)
      rw [toUpper_eq_of_not_alpha ha.1]
      exact ha
    · obtain ⟨d, hd, rfl⟩ := List.mem_map.1 h2
      have hdprop := h d (List.mem_cons_of_mem _ hd)
      rw [toLower_eq_of_not_alpha hdprop.1]
      exact hdprop

theorem applyUppercaseFixups_nonalnum {parts : List (List Char)}
    (h : ∀ seg ∈ parts, ∀ c ∈ seg, c.isAlpha = false ∧ c.isDigit = false) :
    ∀ seg ∈ applyUppercaseFixups parts, ∀ c ∈ seg,
      c.isAlpha = false ∧ c.isDigit = false := by
  unfold applyUppercaseFixups
  cases hlast : parts.getLast? with
  | none => exact h
  | some last =>
    have hlastmem : last ∈ parts := List.mem_of_getLast?_eq_some hlast
    intro seg hseg c hc
    have hseg' : seg ∈
        (if uppercaseFixups (toLowerL last) = true then
          parts.dropLast ++ [toUpperL last] else parts) := hseg
    clear hseg
    rename' hseg' => hseg
    by_cases hfix : uppercaseFixups (toLowerL last) = true
    · rw [if_pos hfix] at hseg
      rcases List.mem_append.1 hseg with h1 | h2
      · exact h seg (List.dropLast_subset _ h1) c hc
      · rcases List.mem_singleton.1 h2 with rfl
        obtain ⟨d, hd, rfl⟩ := List.mem_map.1 hc
        have hdprop := h last hlastmem d hd
        rw [toUpper_eq_of_not_alpha hdprop.1]
        exact hdprop
    · rw [if_neg hfix] at hseg
      exact h seg hseg c hc

theorem replaceInvalidRunes_all_underscore {l : List Char}
    (h : ∀ c ∈ l, c.isAlpha = false ∧ c.isDigit = false) :
    ∀ c ∈ replaceInvalidRunes l, c = '_' := by
  cases l with
  | nil => intro c hc; cases hc
  | cons a rest =>
    intro c hc
    rcases List.mem_cons.1 hc with h1 | h2
    · have ha := h a (List.mem_cons_self _ _)
      rw [h1]
      simp [goIsLetter, ha.1]
    · obtain ⟨d, hd, rfl⟩ := List.mem_map.1 h2
      have hdprop := h d (List.mem_cons_of_mem _ hd)
      simp [goIsLetter, goIsDigit, hdprop.1, hdprop.2]

/-- Claim C7: fmtFieldName splits on underscores, title-cases each
segment, forces a trailing id or url acronym uppercase, scrubs invalid
runes to underscores (concrete exercises of each rule), it is total by
construction, and a key with no letters or digits degrades to a string
consisting only of underscores. -/
theorem claim_C7 :
    fmtFieldName "foo_id" = "FooID" ∧
    fmtFieldName "foo_url" = "FooURL" ∧
    fmtFieldName "fooBar_baz" = "FoobarBaz" ∧
    fmtFieldName "a-b" = "A_b" ∧
    (∀ s : String, (∀ c ∈ s.toList, c.isAlpha = false ∧ c.isDigit = false) →
      ∀ c ∈ (fmtFieldName s).toList, c = '_') := by
  refine ⟨by decide, by decide, by decide, by decide, ?_⟩
  intro s hs c hc
  have hc' : c ∈ replaceInvalidRunes
      (List.flatten (applyUppercaseFixups
        ((splitUnderscore s.toList).map goTitleSegment))) := hc
  refine replaceInvalidRunes_all_underscore ?_ c hc'
  intro d hd
  obtain ⟨seg, hseg, hdseg⟩ := List.mem_flatten.1 hd
  refine applyUppercaseFixups_nonalnum ?_ seg hseg d hdseg
  intro seg2 hseg2 e he
  obtain ⟨seg0, hseg0, rfl⟩ := List.mem_map.1 hseg2
  refine goTitleSegment_nonalnum ?_ e he
  intro f hf
  exact hs f (mem_of_mem_splitUnderscore _ seg0 hseg0 f hf)

/-- Witness for C7: the all-symbol key degrades to underscores. -/
theorem claim_C7_witness :
    ∀ c ∈ (fmtFieldName "$%!").toList, c = '_' := by
  intro c hc
  refine claim_C7.2.2.2.2 "$%!" ?_ c hc
  intro d hd
  fin_cases hd <;> exact ⟨rfl, rfl⟩

/- C10 helpers: on segments whose non-leading runes are lowercase letters
or digits, strings.Title and the upper-then-lower title casing agree. -/

theorem toLower_eq_of_lower_or_digit {d : Char}
    (h : (d.isLower || d.isDigit) = true) : d.toLower = d := by
  have hn : ¬(65 ≤ d.toNat ∧ d.toNat ≤ 90) := by
    simp [Char.isLower, Char.isDigit, UInt32.le_def, BitVec.le_def] at h
    unfold Char.toNat UInt32.toNat
    intro hc
    obtain ⟨h1, h2⟩ := hc
    rcases h with h | h <;> omega
  unfold Char.toLower
  simp only []
  exact if_neg hn

theorem alnum_of_lower_or_digit {d : Char}
    (h : (d.isLower || d.isDigit) = true) : (d.isAlpha || d.isDigit) = true := by
  simp [Char.isAlpha] at *
  tauto

theorem not_separator_of_alnum {c : Char}
    (h : (c.isAlpha || c.isDigit) = true) : goIsSeparator c = false := by
  simp only [Char.isAlpha, Char.isLower, Char.isUpper, Char.isDigit,
    UInt32.le_def, BitVec.le_def, Bool.or_eq_true, Bool.and_eq_true,
    decide_eq_true_eq] at h
  have hval : (48 ≤ c.toNat ∧ c.toNat ≤ 57) ∨ (97 ≤ c.toNat ∧ c.toNat ≤ 122) ∨
      (65 ≤ c.toNat ∧ c.toNat ≤ 90) := by
    unfold Char.toNat UInt32.toNat
    rcases h with (h | h) | h
    · right; right
      exact ⟨h.1, h.2⟩
    · right; left
      exact ⟨h.1, h.2⟩
    · left
      exact ⟨h.1, h.2⟩
  have h127 : c.toNat ≤ 0x7F := by omega
  unfold goIsSeparator
  rw [if_pos h127]
  simp only [Bool.not_eq_false', Bool.or_eq_true, Bool.and_eq_true,
    decide_eq_true_eq]
  omega

theorem titleLegacy_aux :
    ∀ (rest : List Char) (out : List Char) (prev : Char),
    goIsSeparator prev = false →
    (∀ d ∈ rest, (d.isLower || d.isDigit) = true) →
    (rest.foldl titleLegacyStep (out, prev)).1 = out ++ rest := by
  intro rest
  induction rest with
  | nil => intro out prev _ _; simp
  | cons d rest ih =>
    intro out prev hprev hall
    simp only [List.foldl_cons]
    have hd := hall d (List.mem_cons_self _ _)
    have hstep : titleLegacyStep (out, prev) d = (out ++ [d], d) := by
      simp [titleLegacyStep, hprev]
    rw [hstep,
      ih (out ++ [d]) d (not_separator_of_alnum (alnum_of_lower_or_digit hd))
        (fun e he => hall e (List.mem_cons_of_mem _ he))]
    simp

theorem titleLegacy_eq_titleSegment {seg : List Char} (h : segOkB seg = true) :
    goTitleLegacy seg = goTitleSegment seg := by
  cases seg with
  | nil => rfl
  | cons c rest =>
    simp only [segOkB, Bool.and_eq_true, List.all_eq_true] at h
    unfold goTitleLegacy goTitleSegment
    simp only [List.foldl_cons]
    have hstep : titleLegacyStep ([], ' ') c = ([c.toUpper], c) := by
      simp [titleLegacyStep, show goIsSeparator ' ' = true by decide]
    rw [hstep,
      titleLegacy_aux rest [c.toUpper] c (not_separator_of_alnum h.1) h.2]
    have hmap : rest.map Char.toLower = rest := by
      have hcongr := List.map_congr_left
        (fun d hd => toLower_eq_of_lower_or_digit (h.2 d hd))
      rw [hcongr]
      simp
    rw [hmap]
    rfl

/-- Claim C10 counterexample: the legacy strings.Title keeps interior
uppercase, the memoized generator variant lowercases it, so the two
fmtFieldName implementations disagree already on the key aB. -/
theorem claim_C10_counterexample :
    fmtFieldNameLegacy "aB" = "AB" ∧ fmtFieldName "aB" = "Ab" ∧
    fmtFieldNameLegacy "aB" ≠ fmtFieldName "aB" := by
  refine ⟨by decide, by decide, by decide⟩

/-- Claim C10, amended: the two fmtFieldName implementations agree on
every key whose underscore-separated segments are empty or consist of a
letter-or-digit head followed only by lowercase letters and digits; on
other keys they can disagree (see the counterexample). -/
theorem claim_C10_amended :
    ∀ s : String,
    (∀ seg ∈ splitUnderscore s.toList, segOkB seg = true) →
    fmtFieldNameLegacy s = fmtFieldName s := by
  intro s hs
  unfold fmtFieldNameLegacy fmtFieldName
  have hmaps : (splitUnderscore s.toList).map goTitleLegacy =
      (splitUnderscore s.toList).map goTitleSegment :=
    List.map_congr_left (fun seg hseg => titleLegacy_eq_titleSegment (hs seg hseg))
  rw [hmaps]

/-- Witness for the amended C10 on a well-behaved key. -/
theorem claim_C10_amended_witness :
    fmtFieldNameLegacy "foo_bar1" = fmtFieldName "foo_bar1" :=
  claim_C10_amended "foo_bar1" (by decide)

/- C3 helpers: projections of the GoType updaters, closed equations for
Merge, and name preservation of the child merge. -/

theorem GoType.Name_withTypeStr (t : GoType) (x : String) :
    (t.withTypeStr x).Name = t.Name := by cases t; rfl

theorem GoType.TypeStr_withTypeStr (t : GoType) (x : String) :
    (t.withTypeStr x).TypeStr = x := by cases t; rfl

theorem GoType.Children_withTypeStr (t : GoType) (x : String) :
    (t.withTypeStr x).Children = t.Children := by cases t; rfl

theorem GoType.Name_withChildren (t : GoType) (cs : List GoType) :
    (t.withChildren cs).Name = t.Name := by cases t; rfl

theorem GoType.TypeStr_withChildren (t : GoType) (cs : List GoType) :
    (t.withChildren cs).TypeStr = t.TypeStr := by cases t; rfl

theorem GoType.Children_withChildren (t : GoType) (cs : List GoType) :
    (t.withChildren cs).Children = cs := by cases t; rfl

/-- Merge on a trimmed-type mismatch. -/
theorem Merge_eq_mismatch (A B : GoType)
    (h : trimStar A.TypeStr ≠ trimStar B.TypeStr) :
    Merge A B =
      (if A.TypeStr == "nil" then
        (if B.TypeStr == "struct" then (A.withTypeStr "*struct").withChildren B.Children
         else A.withTypeStr ("*" ++ trimStar B.TypeStr))
      else if B.TypeStr == "nil" then
        (if A.TypeStr == "struct" then A.withTypeStr "*struct"
         else A.withTypeStr ("*" ++ trimStar A.TypeStr))
      else A.withTypeStr "any") := by
  cases B with
  | mk nB tyB rB tgB csB eB =>
    rw [Merge]
    have h' : trimStar A.TypeStr ≠ trimStar tyB := h
    rw [if_pos h']
    rfl

/-- Merge on matching trimmed types: the receiver keeps its type string
and the argument children fold into the receiver children. -/
theorem Merge_eq_trim_eq (A B : GoType)
    (h : trimStar A.TypeStr = trimStar B.TypeStr) :
    Merge A B = A.withChildren (B.Children.foldl (mergeChildStep A.Children) A.Children) := by
  cases B with
  | mk nB tyB rB tgB csB eB =>
    rw [Merge]
    have h' : ¬trimStar A.TypeStr ≠ trimStar tyB := by simpa using h
    rw [if_neg h']
    exact congrArg A.withChildren
      (List.foldl_attach csB
        (fun acc c2 =>
          if hasName A.Children c2.Name then
            updateLastNamed (fun c => Merge c c2) c2.Name acc
          else acc ++ [c2])
        A.Children)

theorem Merge_name (A B : GoType) : (Merge A B).Name = A.Name := by
  by_cases h : trimStar A.TypeStr = trimStar B.TypeStr
  · rw [Merge_eq_trim_eq A B h, GoType.Name_withChildren]
  · rw [Merge_eq_mismatch A B h]
    split
    · split
      · rw [GoType.Name_withChildren, GoType.Name_withTypeStr]
      · rw [GoType.Name_withTypeStr]
    · split
      · split
        · rw [GoType.Name_withTypeStr]
        · rw [GoType.Name_withTypeStr]
      · rw [GoType.Name_withTypeStr]

theorem map_name_updateFirstNamed (f : GoType → GoType) (nm : String)
    (hf : ∀ c, (f c).Name = c.Name) :
    ∀ l : List GoType, (updateFirstNamed f nm l).map GoType.Name = l.map GoType.Name := by
  intro l
  induction l with
  | nil => rfl
  | cons c cs ih =>
    unfold updateFirstNamed
    split
    · simp [hf c]
    · simp [ih]

theorem map_name_updateLastNamed (f : GoType → GoType) (nm : String)
    (hf : ∀ c, (f c).Name = c.Name) (l : List GoType) :
    (updateLastNamed f nm l).map GoType.Name = l.map GoType.Name := by
  unfold updateLastNamed
  rw [List.map_reverse, map_name_updateFirstNamed f nm hf, List.map_reverse,
    List.reverse_reverse]

/-- Membership in the names of the folded child merge: exactly the union
of the accumulator names and the processed argument-children names. -/
theorem mem_names_mergeChildFold (cs0 : List GoType) :
    ∀ (cs2 acc : List GoType),
    (∀ n, n ∈ cs0.map GoType.Name → n ∈ acc.map GoType.Name) →
    ∀ n, n ∈ (cs2.foldl (mergeChildStep cs0) acc).map GoType.Name ↔
      (n ∈ acc.map GoType.Name ∨ n ∈ cs2.map GoType.Name) := by
  intro cs2
  induction cs2 with
  | nil =>
    intro acc _ n
    simp
  | cons c2 rest ih =>
    intro acc hsub n
    simp only [List.foldl_cons]
    by_cases hmem : hasName cs0 c2.Name = true
    · have hstep : mergeChildStep cs0 acc c2 =
          updateLastNamed (fun c => Merge c c2) c2.Name acc := by
        unfold mergeChildStep
        rw [if_pos hmem]
      rw [hstep]
      have hnames : (updateLastNamed (fun c => Merge c c2) c2.Name acc).map GoType.Name
          = acc.map GoType.Name :=
        map_name_updateLastNamed _ _ (fun c => Merge_name c c2) acc
      rw [ih _ (fun m hm => by rw [hnames]; exact hsub m hm)]
      rw [hnames]
      have hc2acc : c2.Name ∈ acc.map GoType.Name := by
        apply hsub
        unfold hasName at hmem
        obtain ⟨c, hc, hceq⟩ := List.any_eq_true.1 hmem
        simp only [beq_iff_eq] at hceq
        rw [← hceq]
        exact List.mem_map_of_mem _ hc
      constructor
      · rintro (h | h)
        · exact Or.inl h
        · exact Or.inr (List.mem_cons_of_mem _ (by simpa using h))
      · rintro (h | h)
        · exact Or.inl h
        · rcases List.mem_cons.1 (by simpa using h : n ∈ c2.Name :: rest.map GoType.Name)
            with h1 | h2
          · subst h1; exact Or.inl hc2acc
          · exact Or.inr h2
    · have hstep : mergeChildStep cs0 acc c2 = acc ++ [c2] := by
        unfold mergeChildStep
        rw [if_neg hmem]
      rw [hstep]
      rw [ih _ (fun m hm => by
        rw [List.map_append]
        exact List.mem_append_left _ (hsub m hm))]
      simp only [List.map_append, List.mem_append, List.map_cons, List.map_nil,
        List.mem_cons, List.mem_singleton, List.not_mem_nil, or_false, List.mem_map]
      constructor
      · rintro ((h | h) | h)
        · exact Or.inl h
        · exact Or.inr (Or.inl h)
        · exact Or.inr (Or.inr h)
      · rintro (h | h | h)
        · exact Or.inl (Or.inl h)
        · exact Or.inl (Or.inr h)
        · exact Or.inr h

/-- Claim C3 counterexample: the kind decision of Merge is not symmetric
once a pointer-marked type participates: merging string with *string
keeps string, merging *string with string keeps *string, so the
nullable-marking of the two results differs. -/
theorem claim_C3_counterexample :
    (Merge (GoType.mk "x" "string" false [] [] "")
        (GoType.mk "y" "*string" false [] [] "")).TypeStr = "string" ∧
    (Merge (GoType.mk "y" "*string" false [] [] "")
        (GoType.mk "x" "string" false [] [] "")).TypeStr = "*string" ∧
    (Merge (GoType.mk "x" "string" false [] [] "")
        (GoType.mk "y" "*string" false [] [] "")).TypeStr ≠
      (Merge (GoType.mk "y" "*string" false [] [] "")
        (GoType.mk "x" "string" false [] [] "")).TypeStr := by
  have h1 : (Merge (GoType.mk "x" "string" false [] [] "")
      (GoType.mk "y" "*string" false [] [] "")).TypeStr = "string" := by
    rw [Merge_eq_trim_eq _ _ (by decide)]
    rfl
  have h2 : (Merge (GoType.mk "y" "*string" false [] [] "")
      (GoType.mk "x" "string" false [] [] "")).TypeStr = "*string" := by
    rw [Merge_eq_trim_eq _ _ (by decide)]
    rfl
  refine ⟨h1, h2, ?_⟩
  rw [h1, h2]
  decide

/-- Claim C3, amended: for operands whose type strings carry no pointer
marker the Merge kind decision is symmetric; when both operands are plain
records the merged children of the two orders carry the same set of child
names; and merging the null placeholder with a plain record yields, in
both orders, the nullable record carrying the record children.  For
pointer-marked operands the receiver marking wins and symmetry fails (see
the counterexample). -/
theorem claim_C3_amended :
    (∀ A B : GoType, trimStar A.TypeStr = A.TypeStr →
        trimStar B.TypeStr = B.TypeStr →
        (Merge A B).TypeStr = (Merge B A).TypeStr) ∧
    (∀ A B : GoType, A.TypeStr = "struct" → B.TypeStr = "struct" →
        ∀ n, n ∈ (Merge A B).Children.map GoType.Name ↔
          n ∈ (Merge B A).Children.map GoType.Name) ∧
    (∀ A B : GoType, A.TypeStr = "nil" → B.TypeStr = "struct" →
        (Merge A B).TypeStr = "*struct" ∧ (Merge A B).Children = B.Children ∧
        (Merge B A).TypeStr = "*struct" ∧ (Merge B A).Children = B.Children) := by
  refine ⟨?_, ?_, ?_⟩
  · intro A B hA hB
    by_cases heq : A.TypeStr = B.TypeStr
    · rw [Merge_eq_trim_eq A B (by rw [hA, hB, heq]),
        Merge_eq_trim_eq B A (by rw [hA, hB, heq]),
        GoType.TypeStr_withChildren, GoType.TypeStr_withChildren, heq]
    · have hne : trimStar A.TypeStr ≠ trimStar B.TypeStr := by
        rw [hA, hB]; exact heq
      rw [Merge_eq_mismatch A B hne, Merge_eq_mismatch B A (Ne.symm hne)]
      by_cases hAnil : A.TypeStr = "nil"
      · have hBnil : B.TypeStr ≠ "nil" := by rw [← hAnil]; exact fun h => heq h.symm
        by_cases hBstruct : B.TypeStr = "struct"
        · simp [hAnil, hBnil, hBstruct, GoType.TypeStr_withChildren,
            GoType.TypeStr_withTypeStr]
        · simp [hAnil, hBnil, hBstruct, GoType.TypeStr_withTypeStr]
      · by_cases hBnil : B.TypeStr = "nil"
        · by_cases hAstruct : A.TypeStr = "struct"
          · simp [hAnil, hBnil, hAstruct, GoType.TypeStr_withChildren,
              GoType.TypeStr_withTypeStr]
          · simp [hAnil, hBnil, hAstruct, GoType.TypeStr_withTypeStr]
        · simp [hAnil, hBnil, GoType.TypeStr_withTypeStr]
  · intro A B hA hB n
    have htrim : trimStar A.TypeStr = trimStar B.TypeStr := by rw [hA, hB]
    rw [Merge_eq_trim_eq A B htrim, Merge_eq_trim_eq B A htrim.symm,
      GoType.Children_withChildren, GoType.Children_withChildren]
    rw [mem_names_mergeChildFold A.Children B.Children A.Children (fun m hm => hm),
      mem_names_mergeChildFold B.Children A.Children B.Children (fun m hm => hm)]
    exact or_comm
  · intro A B hA hB
    have hne : trimStar A.TypeStr ≠ trimStar B.TypeStr := by
      rw [hA, hB]; decide
    rw [Merge_eq_mismatch A B hne, Merge_eq_mismatch B A (Ne.symm hne)]
    have hBnil : B.TypeStr ≠ "nil" := by rw [hB]; decide
    simp [hA, hB, hBnil, GoType.TypeStr_withChildren, GoType.TypeStr_withTypeStr,
      GoType.Children_withChildren, GoType.Children_withTypeStr]

/- C5 helpers: the accumulated sample count of each processing mode. -/

theorem TotalLines_ProcessValue (s : StructStats) (k : String) (v : JValue) :
    (ProcessValue s k v).TotalLines = s.TotalLines := by
  simp only [ProcessValue, updateField]
  split <;> rfl

theorem TotalLines_foldl_ProcessValue (data : List (String × JValue)) :
    ∀ s : StructStats,
    (data.foldl (fun s kv => ProcessValue s kv.1 kv.2) s).TotalLines = s.TotalLines := by
  induction data with
  | nil => intro s; rfl
  | cons kv rest ih =>
    intro s
    simp only [List.foldl_cons]
    rw [ih, TotalLines_ProcessValue]

theorem TotalLines_ProcessJSON (s : StructStats) (data : List (String × JValue)) :
    (ProcessJSON s data).TotalLines = s.TotalLines + 1 := by
  unfold ProcessJSON
  rw [TotalLines_foldl_ProcessValue]

theorem TotalLines_arrFold (items : List JValue) :
    ∀ s : StructStats,
    (items.foldl
      (fun s it => match it with
        | .obj fs => ProcessJSON s fs
        | _ => s) s).TotalLines =
    s.TotalLines + items.countP (fun it => match it with | .obj _ => true | _ => false) := by
  induction items with
  | nil => intro s; simp
  | cons it rest ih =>
    intro s
    simp only [List.foldl_cons, List.countP_cons]
    cases it <;> simp [ih, TotalLines_ProcessJSON] <;> omega

theorem TotalLines_ndjsonFold (lines : List (Option (List (String × JValue)))) :
    ∀ s : StructStats,
    (lines.foldl
      (fun s l => match l with
        | some fs => ProcessJSON s fs
        | none => s) s).TotalLines =
    s.TotalLines + lines.countP (fun l => l.isSome) := by
  induction lines with
  | nil => intro s; simp
  | cons l rest ih =>
    intro s
    simp only [List.foldl_cons, List.countP_cons]
    cases l <;> simp [ih, TotalLines_ProcessJSON] <;> omega

theorem validate_isOk (s : StructStats) :
    (accumulate.validate s).isOk = true ↔ 0 < s.TotalLines := by
  unfold accumulate.validate
  split
  · rename_i h
    simp only [beq_iff_eq] at h
    simp [h, Except.isOk, Except.toBool]
  · rename_i h
    simp only [beq_iff_eq] at h
    simp [Except.isOk, Except.toBool]
    omega

/-- Claim C5: the accumulation and validation phase of generate fails on
the empty top-level array, succeeds on the empty object resolving it to a
record with zero fields, and in general succeeds exactly when at least
one object sample was accumulated.  Rendering and formatting of the
resolved tree happen after this phase and are outside it. -/
theorem claim_C5 :
    (accumulate (.parsed (.arr [])) = .error "no valid JSON objects found") ∧
    (accumulate (.parsed (.obj [])) = .ok ⟨[], 1, []⟩) ∧
    (buildTypeFromStats 1 ⟨"Foo", ""⟩ ⟨[], 1, []⟩ =
      GoType.mk "Foo" "struct" false [] [] "") ∧
    (∀ d : DecodedInput, (accumulate d).isOk = true ↔ 0 < samplesOf d) := by
  refine ⟨rfl, rfl, rfl, ?_⟩
  intro d
  cases d with
  | empty => simp [accumulate, samplesOf, Except.isOk, Except.toBool]
  | parsed v =>
    cases v with
    | obj fields =>
      have hacc : accumulate (.parsed (.obj fields)) =
          accumulate.validate (ProcessJSON NewStructStats fields) := rfl
      rw [hacc, validate_isOk, TotalLines_ProcessJSON]
      simp [samplesOf]
    | arr items =>
      have hacc : accumulate (.parsed (.arr items)) =
          accumulate.validate (items.foldl
            (fun s it => match it with
              | .obj fs => ProcessJSON s fs
              | _ => s)
            NewStructStats) := rfl
      rw [hacc, validate_isOk, TotalLines_arrFold]
      simp [samplesOf, NewStructStats]
    | null => simp [accumulate, samplesOf, Except.isOk, Except.toBool]
    | bool b => simp [accumulate, samplesOf, Except.isOk, Except.toBool]
    | num x => simp [accumulate, samplesOf, Except.isOk, Except.toBool]
    | str s => simp [accumulate, samplesOf, Except.isOk, Except.toBool]
  | ndjson lines =>
    by_cases hany : lines.any (fun l => l.isSome) = true
    · have hacc : accumulate (.ndjson lines) =
          accumulate.validate (lines.foldl
            (fun s l => match l with
              | some fs => ProcessJSON s fs
              | none => s)
            NewStructStats) := by
        simp only [accumulate]
        rw [if_pos hany]
      rw [hacc, validate_isOk, TotalLines_ndjsonFold]
      simp [samplesOf, NewStructStats]
    · have hacc : accumulate (.ndjson lines) = .error "error parsing JSON" := by
        simp only [accumulate]
        rw [if_neg hany]
      have hzero : lines.countP (fun l => l.isSome) = 0 := by
        rw [List.countP_eq_zero]
        intro l hl
        by_contra hsome
        exact hany (List.any_eq_true.2 ⟨l, hl, by simpa using hsome⟩)
      rw [hacc]
      simp [samplesOf, hzero, Except.isOk, Except.toBool]

/-- Witness for the sampled-input iff of C5 at a one-object array. -/
theorem claim_C5_witness :
    (accumulate (.parsed (.arr [.obj [("a", .num 1)]]))).isOk = true ↔
      0 < samplesOf (.parsed (.arr [.obj [("a", .num 1)]])) :=
  claim_C5.2.2.2 (.parsed (.arr [.obj [("a", .num 1)]]))

/-- Witness for the amended C3 at concrete operands. -/
theorem claim_C3_amended_witness :
    ((Merge (GoType.mk "x" "string" false [] [] "")
        (GoType.mk "y" "bool" false [] [] "")).TypeStr =
      (Merge (GoType.mk "y" "bool" false [] [] "")
        (GoType.mk "x" "string" false [] [] "")).TypeStr) ∧
    (∀ n, n ∈ (Merge (GoType.mk "r" "struct" false [] [GoType.mk "a" "string" false [] [] ""] "")
        (GoType.mk "s" "struct" false [] [GoType.mk "b" "bool" false [] [] ""] "")).Children.map GoType.Name ↔
      n ∈ (Merge (GoType.mk "s" "struct" false [] [GoType.mk "b" "bool" false [] [] ""] "")
        (GoType.mk "r" "struct" false [] [GoType.mk "a" "string" false [] [] ""] "")).Children.map GoType.Name) ∧
    ((Merge (GoType.mk "n" "nil" false [] [] "")
        (GoType.mk "r" "struct" false [] [GoType.mk "a" "string" false [] [] ""] "")).TypeStr = "*struct") := by
  refine ⟨?_, ?_, ?_⟩
  · exact claim_C3_amended.1 (GoType.mk "x" "string" false [] [] "")
      (GoType.mk "y" "bool" false [] [] "") (by decide) (by decide)
  · exact claim_C3_amended.2.1
      (GoType.mk "r" "struct" false [] [GoType.mk "a" "string" false [] [] ""] "")
      (GoType.mk "s" "struct" false [] [GoType.mk "b" "bool" false [] [] ""] "")
      rfl rfl
  · exact (claim_C3_amended.2.2
      (GoType.mk "n" "nil" false [] [] "")
      (GoType.mk "r" "struct" false [] [GoType.mk "a" "string" false [] [] ""] "")
      rfl rfl).1


/-- Claim C6 exhibit: the two runs process the same two samples in the two
NDJSON orders and accumulate StructStats that are equal as maps (same
single field, same per-type counts, same array flags, same totals), yet
buildTypeFromStats resolves the field to []string in one run and
[]float64 in the other: the array element type is taken from the first
entry of the IsArray map in iteration order, which Go leaves unspecified,
so identical statistics do not yield byte-identical output. -/
theorem claim_C6 :
    (c6run1.Fields.map Prod.fst = ["F"] ∧ c6run2.Fields.map Prod.fst = ["F"]) ∧
    ((lookupField c6run1.Fields "F").Types.Perm
      (lookupField c6run2.Fields "F").Types) ∧
    ((lookupField c6run1.Fields "F").IsArray.Perm
      (lookupField c6run2.Fields "F").IsArray) ∧
    ((lookupField c6run1.Fields "F").TotalCount =
      (lookupField c6run2.Fields "F").TotalCount) ∧
    (c6run1.TotalLines = c6run2.TotalLines) ∧
    ((buildTypeFromStats 2 ⟨"Foo", ""⟩ c6run1).Children.map GoType.TypeStr =
      ["string"]) ∧
    ((buildTypeFromStats 2 ⟨"Foo", ""⟩ c6run2).Children.map GoType.TypeStr =
      ["float64"]) ∧
    ((buildTypeFromStats 2 ⟨"Foo", ""⟩ c6run1).Children.map GoType.TypeStr ≠
      (buildTypeFromStats 2 ⟨"Foo", ""⟩ c6run2).Children.map GoType.TypeStr) := by
  decide

/-- Claim C9 counterexample: after one array-of-string observation and one
plain float64 observation of the same field, the resolved field is still
marked repeated, although it was not seen only as arrays (the float64
count is positive and carries no array flag). -/
theorem claim_C9_counterexample :
    ((buildTypeFromStats 2 ⟨"Foo", ""⟩ c9run).Children.map
      (fun c => (c.TypeStr, c.Repeated)) = [("string", true)]) ∧
    fieldTypesLookup c9run "F" "float64" = 1 ∧
    fieldIsArrayLookup c9run "F" "float64" = false ∧
    isArrValue (.num 1) = false := by
  decide



/- Assoc-map toolkit: the effect of bump, setTrue, updateFields and the
first-encounter append on lookups. -/

theorem lookupNat_bump (l : List (String × Nat)) (k t : String) :
    lookupNat (bump l k) t = lookupNat l t + (if k = t then 1 else 0) := by
  induction l with
  | nil =>
    by_cases hkt : k = t
    · subst hkt
      simp [bump, lookupNat]
    · have hb : (k == t) = false := by simpa using hkt
      simp [bump, lookupNat, hb, hkt]
  | cons p ps ih =>
    simp only [bump]
    by_cases hpk : (p.1 == k) = true
    · rw [if_pos hpk]
      simp only [beq_iff_eq] at hpk
      by_cases hpt : (p.1 == t) = true
      · simp only [beq_iff_eq] at hpt
        have hkt : k = t := by rw [← hpk, hpt]
        simp [lookupNat, hpt, hkt]
      · have hkt : ¬k = t := by
          intro h
          rw [← hpk] at h
          simp [h] at hpt
        simp [lookupNat, hpt, hkt]
    · rw [if_neg hpk]
      simp only [lookupNat]
      by_cases hpt : (p.1 == t) = true
      · have hkt : ¬k = t := by
          intro h
          subst h
          simp only [beq_iff_eq] at hpt
          simp [hpt] at hpk
        simp [hpt, hkt]
      · simp [hpt, ih]

theorem lookupBool_setTrue (l : List (String × Bool)) (k t : String) :
    lookupBool (setTrue l k) t = if k = t then true else lookupBool l t := by
  induction l with
  | nil =>
    by_cases hkt : k = t
    · subst hkt
      simp [setTrue, lookupBool]
    · have hb : (k == t) = false := by simpa using hkt
      simp [setTrue, lookupBool, hb, hkt]
  | cons p ps ih =>
    simp only [setTrue]
    by_cases hpk : (p.1 == k) = true
    · rw [if_pos hpk]
      simp only [beq_iff_eq] at hpk
      by_cases hpt : (p.1 == t) = true
      · simp only [beq_iff_eq] at hpt
        have hkt : k = t := by rw [← hpk, hpt]
        simp [lookupBool, hpt, hkt]
      · have hkt : ¬k = t := by
          intro h
          rw [← hpk] at h
          simp [h] at hpt
        simp [lookupBool, hpt, hkt]
    · rw [if_neg hpk]
      simp only [lookupBool]
      by_cases hpt : (p.1 == t) = true
      · have hkt : ¬k = t := by
          intro h
          subst h
          simp only [beq_iff_eq] at hpt
          simp [hpt] at hpk
        simp [hpt, hkt]
      · simp [hpt, ih]

theorem setTrue_all_true (l : List (String × Bool)) (k : String)
    (h : ∀ p ∈ l, p.2 = true) : ∀ p ∈ setTrue l k, p.2 = true := by
  induction l with
  | nil =>
    intro p hp
    simp only [setTrue] at hp
    rcases List.mem_singleton.1 hp with rfl
    rfl
  | cons q ps ih =>
    intro p hp
    simp only [setTrue] at hp
    split at hp
    · rcases List.mem_cons.1 hp with rfl | hmem
      · rfl
      · exact h p (List.mem_cons_of_mem _ hmem)
    · rcases List.mem_cons.1 hp with rfl | hmem
      · exact h p (List.mem_cons_self _ _)
      · exact ih (fun q hq => h q (List.mem_cons_of_mem _ hq)) p hmem

theorem setTrue_ne_nil (l : List (String × Bool)) (k : String) :
    setTrue l k ≠ [] := by
  cases l with
  | nil => simp [setTrue]
  | cons p ps =>
    simp only [setTrue]
    split
    · simp
    · simp

theorem lookupField_updateFields_other (fs : List (String × FieldStat))
    (f0 fn : String) (g : FieldStat → FieldStat) (h : fn ≠ f0) :
    lookupField (updateFields f0 g fs) fn = lookupField fs fn := by
  induction fs with
  | nil => rfl
  | cons p ps ih =>
    simp only [updateFields]
    by_cases hpk : (p.1 == f0) = true
    · rw [if_pos hpk]
      simp only [beq_iff_eq] at hpk
      have hpn : (p.1 == fn) = false := by
        simp only [beq_eq_false_iff_ne, ne_eq, hpk]
        exact fun hh => h hh.symm
      simp [lookupField, hpn]
    · rw [if_neg hpk]
      simp only [lookupField]
      by_cases hpn : (p.1 == fn) = true
      · simp [hpn]
      · simp [hpn, ih]

theorem lookupField_updateFields_self (fs : List (String × FieldStat))
    (f0 : String) (g : FieldStat → FieldStat) (h : hasKey fs f0 = true) :
    lookupField (updateFields f0 g fs) f0 = g (lookupField fs f0) := by
  induction fs with
  | nil => simp [hasKey] at h
  | cons p ps ih =>
    simp only [updateFields]
    by_cases hpk : (p.1 == f0) = true
    · simp [lookupField, hpk]
    · rw [if_neg hpk]
      simp only [lookupField, hpk, if_false]
      simp only [hasKey, hpk, Bool.false_or] at h
      exact ih h

theorem lookupField_append_other (fs : List (String × FieldStat))
    (f0 fn : String) (st : FieldStat) (h : fn ≠ f0) :
    lookupField (fs ++ [(f0, st)]) fn = lookupField fs fn := by
  induction fs with
  | nil =>
    have hb : (f0 == fn) = false := by
      simp only [beq_eq_false_iff_ne, ne_eq]
      exact fun hh => h hh.symm
    simp [lookupField, hb]
  | cons p ps ih =>
    simp only [List.cons_append, lookupField]
    split
    · rfl
    · exact ih

theorem lookupField_append_self (fs : List (String × FieldStat))
    (f0 : String) (st : FieldStat) (h : hasKey fs f0 = false) :
    lookupField (fs ++ [(f0, st)]) f0 = st := by
  induction fs with
  | nil => simp [lookupField]
  | cons p ps ih =>
    simp only [hasKey, Bool.or_eq_false_iff] at h
    simp only [List.cons_append, lookupField, h.1, if_false]
    exact ih h.2

theorem hasKey_append_self {B : Type} (fs : List (String × B)) (f0 : String)
    (b : B) : hasKey (fs ++ [(f0, b)]) f0 = true := by
  induction fs with
  | nil => simp [hasKey]
  | cons p ps ih =>
    simp only [List.cons_append, hasKey]
    rw [show ps.append [(f0, b)] = ps ++ [(f0, b)] from rfl, ih, Bool.or_true]


/- ProcessValue effect lemmas: what one observation does to the stored
statistics of its own field and of every other field. -/

theorem lookupField_not_hasKey (fs : List (String × FieldStat)) (k : String)
    (h : hasKey fs k = false) : lookupField fs k = newFieldStat "" "" := by
  induction fs with
  | nil => rfl
  | cons p ps ih =>
    simp only [hasKey, Bool.or_eq_false_iff] at h
    simp only [lookupField, h.1, if_false]
    exact ih h.2

theorem lookupField_ProcessValue_self (s : StructStats) (key : String) (v : JValue) :
    lookupField (ProcessValue s key v).Fields (fmtFieldName key) =
      processValueBody v
        { statOf s key with TotalCount := (statOf s key).TotalCount + 1 } := by
  simp only [ProcessValue, updateField]
  by_cases hk : hasKey s.Fields (fmtFieldName key) = true
  · rw [if_pos hk]
    rw [lookupField_updateFields_self _ _ _ hk]
    unfold statOf
    rw [if_pos hk]
  · rw [if_neg hk]
    simp only []
    have hk2 : hasKey (s.Fields ++ [(fmtFieldName key, newFieldStat (fmtFieldName key) key)])
        (fmtFieldName key) = true := hasKey_append_self _ _ _
    rw [lookupField_updateFields_self _ _ _ hk2]
    rw [lookupField_append_self _ _ _ (by simpa using hk)]
    unfold statOf
    rw [if_neg hk]

theorem lookupField_ProcessValue_other (s : StructStats) (key : String) (v : JValue)
    (fn : String) (h : fn ≠ fmtFieldName key) :
    lookupField (ProcessValue s key v).Fields fn = lookupField s.Fields fn := by
  simp only [ProcessValue, updateField]
  by_cases hk : hasKey s.Fields (fmtFieldName key) = true
  · rw [if_pos hk]
    exact lookupField_updateFields_other _ _ _ _ h
  · rw [if_neg hk]
    simp only []
    rw [lookupField_updateFields_other _ _ _ _ h]
    exact lookupField_append_other _ _ _ _ h

theorem statOf_Types (s : StructStats) (key : String) :
    (statOf s key).Types = (lookupField s.Fields (fmtFieldName key)).Types := by
  unfold statOf
  split
  · rfl
  · rename_i h
    rw [lookupField_not_hasKey _ _ (by simpa using h)]
    rfl

theorem statOf_TotalCount (s : StructStats) (key : String) :
    (statOf s key).TotalCount =
      (lookupField s.Fields (fmtFieldName key)).TotalCount := by
  unfold statOf
  split
  · rfl
  · rename_i h
    rw [lookupField_not_hasKey _ _ (by simpa using h)]
    rfl

theorem statOf_IsArray (s : StructStats) (key : String) :
    (statOf s key).IsArray = (lookupField s.Fields (fmtFieldName key)).IsArray := by
  unfold statOf
  split
  · rfl
  · rename_i h
    rw [lookupField_not_hasKey _ _ (by simpa using h)]
    rfl

theorem statOf_NestedObjs (s : StructStats) (key : String) :
    (statOf s key).NestedObjs =
      (lookupField s.Fields (fmtFieldName key)).NestedObjs := by
  unfold statOf
  split
  · rfl
  · rename_i h
    rw [lookupField_not_hasKey _ _ (by simpa using h)]
    rfl

theorem probeValue_Types (f : FieldStat) (val : String) :
    (probeValue f val).Types = f.Types := by
  unfold probeValue
  split <;> rfl

theorem probeValue_TotalCount (f : FieldStat) (val : String) :
    (probeValue f val).TotalCount = f.TotalCount := by
  unfold probeValue
  split <;> rfl

theorem probeValue_IsArray (f : FieldStat) (val : String) :
    (probeValue f val).IsArray = f.IsArray := by
  unfold probeValue
  split <;> rfl

theorem probeValue_NestedObjs (f : FieldStat) (val : String) :
    (probeValue f val).NestedObjs = f.NestedObjs := by
  unfold probeValue
  split <;> rfl

theorem PB_Types (v : JValue) (f : FieldStat) :
    (processValueBody v f).Types = bump f.Types (obsType v) := by
  cases v with
  | arr elems =>
    cases elems with
    | nil => rfl
    | cons v0 vs =>
      simp only [processValueBody, obsType]
      split <;> rfl
  | obj fs => rfl
  | str s =>
    simp only [processValueBody, obsType, getGoType]
    split
    · rw [probeValue_Types]
    · rfl
  | num x =>
    simp only [processValueBody, obsType, getGoType]
    split
    · rw [probeValue_Types]
    · rfl
  | bool b =>
    simp only [processValueBody, obsType, getGoType]
    rw [probeValue_Types]
  | null => rfl

theorem PB_TotalCount (v : JValue) (f : FieldStat) :
    (processValueBody v f).TotalCount = f.TotalCount := by
  cases v with
  | arr elems =>
    cases elems with
    | nil => rfl
    | cons v0 vs =>
      simp only [processValueBody]
      split <;> rfl
  | obj fs => rfl
  | str s =>
    simp only [processValueBody]
    split
    · rw [probeValue_TotalCount]
    · rfl
  | num x =>
    simp only [processValueBody]
    split
    · rw [probeValue_TotalCount]
    · rfl
  | bool b =>
    simp only [processValueBody]
    rw [probeValue_TotalCount]
  | null => rfl

theorem PB_IsArray (v : JValue) (f : FieldStat) :
    (processValueBody v f).IsArray =
      if isArrValue v = true then setTrue f.IsArray (obsType v) else f.IsArray := by
  cases v with
  | arr elems =>
    cases elems with
    | nil => rfl
    | cons v0 vs =>
      simp only [processValueBody, obsType, isArrValue, if_true]
      split <;> rfl
  | obj fs => rfl
  | str s =>
    simp only [processValueBody, isArrValue]
    split
    · rw [probeValue_IsArray]
      simp
    · simp
  | num x =>
    simp only [processValueBody, isArrValue]
    split
    · rw [probeValue_IsArray]
      simp
    · simp
  | bool b =>
    simp only [processValueBody, isArrValue]
    rw [probeValue_IsArray]
    simp
  | null => simp [processValueBody, isArrValue]

theorem PB_NestedObjs (v : JValue) (f : FieldStat) :
    (processValueBody v f).NestedObjs = f.NestedObjs ++ nestedDelta v := by
  cases v with
  | arr elems =>
    cases elems with
    | nil => simp [processValueBody, nestedDelta]
    | cons v0 vs =>
      simp only [processValueBody, nestedDelta]
      split
      · rfl
      · simp
  | obj fs => rfl
  | str s =>
    simp only [processValueBody, nestedDelta]
    split
    · rw [probeValue_NestedObjs]
      simp
    · simp
  | num x =>
    simp only [processValueBody, nestedDelta]
    split
    · rw [probeValue_NestedObjs]
      simp
    · simp
  | bool b =>
    simp only [processValueBody, nestedDelta]
    rw [probeValue_NestedObjs]
    simp
  | null => simp [processValueBody, nestedDelta]

theorem fieldTypesLookup_ProcessValue (s : StructStats) (key : String) (v : JValue)
    (fn tn : String) :
    fieldTypesLookup (ProcessValue s key v) fn tn =
      fieldTypesLookup s fn tn +
        (if fmtFieldName key = fn ∧ obsType v = tn then 1 else 0) := by
  by_cases hfn : fn = fmtFieldName key
  · subst hfn
    unfold fieldTypesLookup
    rw [lookupField_ProcessValue_self, PB_Types]
    have hT : ({ statOf s key with
        TotalCount := (statOf s key).TotalCount + 1 } : FieldStat).Types =
        (lookupField s.Fields (fmtFieldName key)).Types := statOf_Types s key
    rw [hT, lookupNat_bump]
    simp
  · unfold fieldTypesLookup
    rw [lookupField_ProcessValue_other s key v fn hfn]
    have : ¬(fmtFieldName key = fn ∧ obsType v = tn) := fun h => hfn h.1.symm
    simp [this]

theorem fieldTotal_ProcessValue (s : StructStats) (key : String) (v : JValue)
    (fn : String) :
    fieldTotal (ProcessValue s key v) fn =
      fieldTotal s fn + (if fmtFieldName key = fn then 1 else 0) := by
  by_cases hfn : fn = fmtFieldName key
  · subst hfn
    unfold fieldTotal
    rw [lookupField_ProcessValue_self, PB_TotalCount]
    simp only []
    rw [statOf_TotalCount]
    simp
  · unfold fieldTotal
    rw [lookupField_ProcessValue_other s key v fn hfn]
    have : ¬(fmtFieldName key = fn) := fun h => hfn h.symm
    simp [this]

theorem fieldIsArrayLookup_ProcessValue (s : StructStats) (key : String)
    (v : JValue) (fn tn : String) :
    fieldIsArrayLookup (ProcessValue s key v) fn tn =
      (if fmtFieldName key = fn ∧ isArrValue v = true ∧ obsType v = tn then true
       else fieldIsArrayLookup s fn tn) := by
  by_cases hfn : fn = fmtFieldName key
  · subst hfn
    unfold fieldIsArrayLookup
    rw [lookupField_ProcessValue_self, PB_IsArray]
    have hA : ({ statOf s key with
        TotalCount := (statOf s key).TotalCount + 1 } : FieldStat).IsArray =
        (lookupField s.Fields (fmtFieldName key)).IsArray := statOf_IsArray s key
    by_cases harr : isArrValue v = true
    · rw [if_pos harr, hA, lookupBool_setTrue]
      by_cases htn : obsType v = tn
      · simp [harr, htn]
      · simp [harr, htn]
    · rw [if_neg harr, hA]
      simp [harr]
  · unfold fieldIsArrayLookup
    rw [lookupField_ProcessValue_other s key v fn hfn]
    have : ¬(fmtFieldName key = fn ∧ isArrValue v = true ∧ obsType v = tn) :=
      fun h => hfn h.1.symm
    simp [this]

theorem fieldNested_ProcessValue (s : StructStats) (key : String) (v : JValue)
    (fn : String) :
    fieldNested (ProcessValue s key v) fn =
      fieldNested s fn ++
        (if fmtFieldName key = fn then nestedDelta v else []) := by
  by_cases hfn : fn = fmtFieldName key
  · subst hfn
    unfold fieldNested
    rw [lookupField_ProcessValue_self, PB_NestedObjs]
    simp only []
    rw [statOf_NestedObjs]
    simp
  · unfold fieldNested
    rw [lookupField_ProcessValue_other s key v fn hfn]
    have : ¬(fmtFieldName key = fn) := fun h => hfn h.symm
    simp [this]


/- C2: per-field counters are fold-invariant under permutation of the
flattened observation sequence. -/

theorem fieldTypesLookup_processObsList (fn tn : String) :
    ∀ (obs : List (String × JValue)) (s : StructStats),
    fieldTypesLookup (processObsList s obs) fn tn =
      fieldTypesLookup s fn tn +
        obs.countP (fun kv => (fmtFieldName kv.1 == fn) && (obsType kv.2 == tn)) := by
  intro obs
  induction obs with
  | nil => intro s; simp [processObsList]
  | cons kv rest ih =>
    intro s
    have hstep : processObsList s (kv :: rest) =
        processObsList (ProcessValue s kv.1 kv.2) rest := rfl
    rw [hstep, ih, fieldTypesLookup_ProcessValue]
    rw [List.countP_cons]
    by_cases hp : fmtFieldName kv.1 = fn ∧ obsType kv.2 = tn
    · simp [hp.1, hp.2]
      omega
    · have hb : ((fmtFieldName kv.1 == fn) && (obsType kv.2 == tn)) = false := by
        rcases Decidable.not_and_iff_or_not.1 hp with h | h
        · simp [h]
        · simp [h]
      simp [hp, hb]

theorem fieldTotal_processObsList (fn : String) :
    ∀ (obs : List (String × JValue)) (s : StructStats),
    fieldTotal (processObsList s obs) fn =
      fieldTotal s fn + obs.countP (fun kv => fmtFieldName kv.1 == fn) := by
  intro obs
  induction obs with
  | nil => intro s; simp [processObsList]
  | cons kv rest ih =>
    intro s
    have hstep : processObsList s (kv :: rest) =
        processObsList (ProcessValue s kv.1 kv.2) rest := rfl
    rw [hstep, ih, fieldTotal_ProcessValue]
    rw [List.countP_cons]
    by_cases hp : fmtFieldName kv.1 = fn
    · simp [hp]
      omega
    · have hb : (fmtFieldName kv.1 == fn) = false := by simpa using hp
      simp [hp, hb]

theorem ProcessJSON_eq_processObsList (s : StructStats)
    (data : List (String × JValue)) :
    ProcessJSON s data =
      processObsList { s with TotalLines := s.TotalLines + 1 } data := rfl

theorem fieldTypesLookup_TotalLines_bump (s : StructStats) (n : Nat)
    (fn tn : String) :
    fieldTypesLookup { s with TotalLines := n } fn tn = fieldTypesLookup s fn tn := rfl

theorem fieldTypesLookup_processRun (fn tn : String) :
    ∀ (runs : List (List (String × JValue))) (s : StructStats),
    fieldTypesLookup (runs.foldl ProcessJSON s) fn tn =
      fieldTypesLookup s fn tn +
        runs.flatten.countP
          (fun kv => (fmtFieldName kv.1 == fn) && (obsType kv.2 == tn)) := by
  intro runs
  induction runs with
  | nil => intro s; simp
  | cons r rest ih =>
    intro s
    simp only [List.foldl_cons, List.flatten_cons, List.countP_append]
    rw [ih, ProcessJSON_eq_processObsList, fieldTypesLookup_processObsList,
      fieldTypesLookup_TotalLines_bump]
    omega

theorem fieldTotal_processRun (fn : String) :
    ∀ (runs : List (List (String × JValue))) (s : StructStats),
    fieldTotal (runs.foldl ProcessJSON s) fn =
      fieldTotal s fn +
        runs.flatten.countP (fun kv => fmtFieldName kv.1 == fn) := by
  intro runs
  induction runs with
  | nil => intro s; simp
  | cons r rest ih =>
    intro s
    simp only [List.foldl_cons, List.flatten_cons, List.countP_append]
    rw [ih, ProcessJSON_eq_processObsList, fieldTotal_processObsList]
    have : fieldTotal { s with TotalLines := s.TotalLines + 1 } fn = fieldTotal s fn := rfl
    rw [this]
    omega

theorem TotalLines_processRun :
    ∀ (runs : List (List (String × JValue))) (s : StructStats),
    (runs.foldl ProcessJSON s).TotalLines = s.TotalLines + runs.length := by
  intro runs
  induction runs with
  | nil => intro s; simp
  | cons r rest ih =>
    intro s
    simp only [List.foldl_cons, List.length_cons]
    rw [ih, TotalLines_ProcessJSON]
    omega

theorem perm_flatten_of_perm {α : Type} {l₁ l₂ : List (List α)}
    (h : l₁.Perm l₂) : l₁.flatten.Perm l₂.flatten := by
  induction h with
  | nil => exact List.Perm.refl _
  | cons x _ ih =>
    simp only [List.flatten_cons]
    exact ih.append_left x
  | swap x y l =>
    simp only [List.flatten_cons]
    rw [← List.append_assoc, ← List.append_assoc]
    exact List.perm_append_comm.append_right _
  | trans _ _ ih1 ih2 => exact ih1.trans ih2

/-- Claim C2: for two runs whose samples are a reordering of one another
(sample order permuted, and the key/value visitation order inside each
sample permuted), every per-field type count, every per-field total count
and the sample total agree.  The counters are fold-invariant because each
observation adds exactly one to one type count of one field. -/
theorem claim_C2 :
    ∀ (runs₁ mid runs₂ : List (List (String × JValue))),
    runs₁.Perm mid → List.Forall₂ List.Perm mid runs₂ →
    (∀ fn tn, fieldTypesLookup (processRun runs₁) fn tn =
      fieldTypesLookup (processRun runs₂) fn tn) ∧
    (∀ fn, fieldTotal (processRun runs₁) fn = fieldTotal (processRun runs₂) fn) ∧
    (processRun runs₁).TotalLines = (processRun runs₂).TotalLines := by
  intro runs₁ mid runs₂ h₁ h₂
  have hflat : runs₁.flatten.Perm runs₂.flatten :=
    (perm_flatten_of_perm h₁).trans (List.Perm.flatten_congr h₂)
  refine ⟨?_, ?_, ?_⟩
  · intro fn tn
    unfold processRun
    rw [fieldTypesLookup_processRun, fieldTypesLookup_processRun]
    rw [hflat.countP_eq]
  · intro fn
    unfold processRun
    rw [fieldTotal_processRun, fieldTotal_processRun]
    rw [hflat.countP_eq]
  · unfold processRun
    rw [TotalLines_processRun, TotalLines_processRun]
    rw [h₁.length_eq, h₂.length_eq]

/-- Witness for C2: two NDJSON samples with the samples swapped and the
keys of one sample visited in the opposite order. -/
theorem claim_C2_witness :
    (∀ fn tn,
      fieldTypesLookup (processRun
        [[("a", .num 1), ("b", .str "x")], [("a", .null)]]) fn tn =
      fieldTypesLookup (processRun
        [[("a", .null)], [("b", .str "x"), ("a", .num 1)]]) fn tn) ∧
    (∀ fn, fieldTotal (processRun
        [[("a", .num 1), ("b", .str "x")], [("a", .null)]]) fn =
      fieldTotal (processRun
        [[("a", .null)], [("b", .str "x"), ("a", .num 1)]]) fn) ∧
    (processRun [[("a", .num 1), ("b", .str "x")], [("a", .null)]]).TotalLines =
      (processRun [[("a", .null)], [("b", .str "x"), ("a", .num 1)]]).TotalLines := by
  exact claim_C2
    [[("a", .num 1), ("b", .str "x")], [("a", .null)]]
    [[("a", .null)], [("a", .num 1), ("b", .str "x")]]
    [[("a", .null)], [("b", .str "x"), ("a", .num 1)]]
    (List.Perm.swap _ _ _)
    (by
      refine List.Forall₂.cons (List.Perm.refl _) ?_
      refine List.Forall₂.cons (List.Perm.swap _ _ _) List.Forall₂.nil)


/- C9: the IsArray census and the repeated flag. -/

/-- The stored IsArray map after one observation: extended at the element
type for an array observation of the field, unchanged otherwise. -/
theorem fieldIsArray_list_ProcessValue (s : StructStats) (k : String) (v : JValue)
    (fn : String) :
    (lookupField (ProcessValue s k v).Fields fn).IsArray =
      if fn = fmtFieldName k ∧ isArrValue v = true then
        setTrue (lookupField s.Fields fn).IsArray (obsType v)
      else (lookupField s.Fields fn).IsArray := by
  by_cases hfn : fn = fmtFieldName k
  · subst hfn
    rw [lookupField_ProcessValue_self, PB_IsArray]
    have hA : ({ statOf s k with
        TotalCount := (statOf s k).TotalCount + 1 } : FieldStat).IsArray =
        (lookupField s.Fields (fmtFieldName k)).IsArray := statOf_IsArray s k
    by_cases harr : isArrValue v = true
    · rw [if_pos harr, hA, if_pos ⟨rfl, harr⟩]
    · rw [if_neg harr, hA, if_neg (fun h => harr h.2)]
  · rw [lookupField_ProcessValue_other s k v fn hfn]
    rw [if_neg (fun h => hfn h.1)]

/-- Every stored IsArray entry is true, and every array-flagged type has a
positive count. -/
theorem isArray_invariant :
    ∀ (obs : List (String × JValue)) (s : StructStats),
    (∀ fn, (∀ p ∈ (lookupField s.Fields fn).IsArray, p.2 = true) ∧
      (∀ t, lookupBool (lookupField s.Fields fn).IsArray t = true →
        0 < lookupNat (lookupField s.Fields fn).Types t)) →
    ∀ fn, (∀ p ∈ (lookupField (processObsList s obs).Fields fn).IsArray, p.2 = true) ∧
      (∀ t, lookupBool (lookupField (processObsList s obs).Fields fn).IsArray t = true →
        0 < lookupNat (lookupField (processObsList s obs).Fields fn).Types t) := by
  intro obs
  induction obs with
  | nil => intro s h; exact h
  | cons kv rest ih =>
    intro s h
    have hstep : processObsList s (kv :: rest) =
        processObsList (ProcessValue s kv.1 kv.2) rest := rfl
    rw [hstep]
    refine ih _ ?_
    intro fn
    have hIA := fieldIsArray_list_ProcessValue s kv.1 kv.2 fn
    constructor
    · intro p hp
      rw [hIA] at hp
      by_cases hc : fn = fmtFieldName kv.1 ∧ isArrValue kv.2 = true
      · rw [if_pos hc] at hp
        exact setTrue_all_true _ _ (h fn).1 p hp
      · rw [if_neg hc] at hp
        exact (h fn).1 p hp
    · intro t ht
      rw [hIA] at ht
      have hTy : lookupNat (lookupField (ProcessValue s kv.1 kv.2).Fields fn).Types t =
          lookupNat (lookupField s.Fields fn).Types t +
            (if fmtFieldName kv.1 = fn ∧ obsType kv.2 = t then 1 else 0) :=
        fieldTypesLookup_ProcessValue s kv.1 kv.2 fn t
      rw [hTy]
      by_cases hc : fn = fmtFieldName kv.1 ∧ isArrValue kv.2 = true
      · rw [if_pos hc] at ht
        rw [lookupBool_setTrue] at ht
        by_cases hot : obsType kv.2 = t
        · have : fmtFieldName kv.1 = fn ∧ obsType kv.2 = t := ⟨hc.1.symm, hot⟩
          simp [this]
        · rw [if_neg hot] at ht
          have := (h fn).2 t ht
          omega
      · rw [if_neg hc] at ht
        have := (h fn).2 t ht
        omega

/-- The IsArray map of a field is nonempty exactly when some observation
of the field was an array. -/
theorem isArray_ne_nil_iff :
    ∀ (obs : List (String × JValue)) (s : StructStats) (fn : String),
    (lookupField (processObsList s obs).Fields fn).IsArray ≠ [] ↔
      ((lookupField s.Fields fn).IsArray ≠ [] ∨
        ∃ kv ∈ obs, fmtFieldName kv.1 = fn ∧ isArrValue kv.2 = true) := by
  intro obs
  induction obs with
  | nil =>
    intro s fn
    simp [processObsList]
  | cons kv rest ih =>
    intro s fn
    have hstep : processObsList s (kv :: rest) =
        processObsList (ProcessValue s kv.1 kv.2) rest := rfl
    rw [hstep, ih]
    have hIA := fieldIsArray_list_ProcessValue s kv.1 kv.2 fn
    by_cases hc : fn = fmtFieldName kv.1 ∧ isArrValue kv.2 = true
    · rw [hIA, if_pos hc]
      constructor
      · intro _
        exact Or.inr ⟨kv, List.mem_cons_self _ _, hc.1.symm, hc.2⟩
      · intro _
        exact Or.inl (setTrue_ne_nil _ _)
    · rw [hIA, if_neg hc]
      constructor
      · rintro (h | ⟨kv2, hkv2, hp⟩)
        · exact Or.inl h
        · exact Or.inr ⟨kv2, List.mem_cons_of_mem _ hkv2, hp⟩
      · rintro (h | ⟨kv2, hkv2, hp⟩)
        · exact Or.inl h
        · rcases List.mem_cons.1 hkv2 with rfl | hmem
          · exact absurd ⟨hp.1.symm, hp.2⟩ hc
          · exact Or.inr ⟨kv2, hmem, hp⟩

/-- The repeated flag of a resolved field is the success of the IsArray
scan, which under the stored invariants is exactly nonemptiness of the
IsArray map. -/
theorem resolveField_repeated_iff (fuel : Nat) (g : generator) (stat : FieldStat)
    (h1 : ∀ p ∈ stat.IsArray, p.2 = true)
    (h2 : ∀ t, lookupBool stat.IsArray t = true → 0 < lookupNat stat.Types t) :
    ((resolveField fuel g stat).Repeated = true ↔ stat.IsArray ≠ []) := by
  have hrep : (resolveField fuel g stat).Repeated =
      (stat.IsArray.find? (fun p =>
        decide (0 < lookupNat stat.Types p.1) && p.2)).isSome := rfl
  rw [hrep]
  cases hA : stat.IsArray with
  | nil => simp
  | cons p rest =>
    have hp2 : p.2 = true := by
      apply h1
      rw [hA]
      exact List.mem_cons_self _ _
    have hlk : lookupBool stat.IsArray p.1 = true := by
      rw [hA]
      simp [lookupBool, hp2]
    have hpos := h2 p.1 hlk
    simp only [List.find?]
    rw [show (decide (0 < lookupNat stat.Types p.1) && p.2) = true by
      simp [hpos, hp2]]
    simp

/-- Claim C9, amended: each array observation is classified by its first
element (the element-type count is bumped, the array flag set, and for a
record first element exactly that element is appended to the
nested-objects list; an empty array counts as the dynamic any element);
and a resolved field is marked repeated exactly when at least one of its
observations was an array - a field seen only as arrays is repeated, but
so is a field that mixes array and non-array observations. -/
theorem claim_C9_amended :
    (∀ (s : StructStats) (k : String) (v : JValue) (vs : List JValue),
      fieldTypesLookup (ProcessValue s k (.arr (v :: vs))) (fmtFieldName k)
          (getGoType v) =
        fieldTypesLookup s (fmtFieldName k) (getGoType v) + 1 ∧
      fieldIsArrayLookup (ProcessValue s k (.arr (v :: vs))) (fmtFieldName k)
          (getGoType v) = true ∧
      fieldNested (ProcessValue s k (.arr (v :: vs))) (fmtFieldName k) =
        fieldNested s (fmtFieldName k) ++
          (if getGoType v == "struct" then [v] else [])) ∧
    (∀ (s : StructStats) (k : String),
      fieldTypesLookup (ProcessValue s k (.arr [])) (fmtFieldName k) "any" =
        fieldTypesLookup s (fmtFieldName k) "any" + 1 ∧
      fieldIsArrayLookup (ProcessValue s k (.arr [])) (fmtFieldName k) "any" = true) ∧
    (∀ (obs : List (String × JValue)) (fn : String) (fuel : Nat) (g : generator),
      ((resolveField fuel g
          (lookupField (processObsList NewStructStats obs).Fields fn)).Repeated = true ↔
        ∃ kv ∈ obs, fmtFieldName kv.1 = fn ∧ isArrValue kv.2 = true)) := by
  refine ⟨?_, ?_, ?_⟩
  · intro s k v vs
    refine ⟨?_, ?_, ?_⟩
    · rw [fieldTypesLookup_ProcessValue]
      simp [obsType]
    · rw [fieldIsArrayLookup_ProcessValue]
      simp [obsType, isArrValue]
    · rw [fieldNested_ProcessValue]
      simp [nestedDelta]
  · intro s k
    constructor
    · rw [fieldTypesLookup_ProcessValue]
      simp [obsType]
    · rw [fieldIsArrayLookup_ProcessValue]
      simp [obsType, isArrValue]
  · intro obs fn fuel g
    have hinv := isArray_invariant obs NewStructStats
      (by
        intro fn2
        constructor
        · intro p hp
          simp [NewStructStats, lookupField, newFieldStat] at hp
        · intro t ht
          simp [NewStructStats, lookupField, newFieldStat, lookupBool] at ht)
      fn
    rw [resolveField_repeated_iff fuel g _ hinv.1 hinv.2]
    rw [isArray_ne_nil_iff obs NewStructStats fn]
    simp [NewStructStats, lookupField, newFieldStat]


/- C8: the cardinality probe. -/

theorem probeValue_Values (f : FieldStat) (val : String) :
    (probeValue f val).Values = bump f.Values val := by
  unfold probeValue
  split <;> rfl

theorem probeValue_ValueOrder (f : FieldStat) (val : String) :
    (probeValue f val).ValueOrder =
      if hasKey f.Values val = true then f.ValueOrder else f.ValueOrder ++ [val] := by
  unfold probeValue
  split
  · rfl
  · rfl

theorem bump_length (l : List (String × Nat)) (k : String) :
    (bump l k).length = if hasKey l k = true then l.length else l.length + 1 := by
  induction l with
  | nil => simp [bump, hasKey]
  | cons p ps ih =>
    simp only [bump]
    by_cases hpk : (p.1 == k) = true
    · simp [hasKey, hpk]
    · rw [if_neg hpk]
      simp only [List.length_cons, ih]
      have hh : hasKey (p :: ps) k = hasKey ps k := by
        simp [hasKey, hpk]
      rw [hh]
      split
      · rfl
      · rfl

theorem hasKey_bump (l : List (String × Nat)) (k t : String) :
    hasKey (bump l k) t = (hasKey l t || (k == t)) := by
  induction l with
  | nil => simp [bump, hasKey]
  | cons p ps ih =>
    simp only [bump, hasKey]
    by_cases hpk : (p.1 == k) = true
    · simp only [hpk, if_true, hasKey]
      simp only [beq_iff_eq] at hpk
      subst hpk
      cases h1 : (p.1 == t) <;> simp [h1]
    · simp only [hpk, if_false, hasKey, ih]
      cases h1 : (p.1 == t) <;> simp


theorem statOf_Values (s : StructStats) (key : String) :
    (statOf s key).Values = (lookupField s.Fields (fmtFieldName key)).Values := by
  unfold statOf
  split
  · rfl
  · rename_i h
    rw [lookupField_not_hasKey _ _ (by simpa using h)]
    rfl

theorem statOf_ValueOrder (s : StructStats) (key : String) :
    (statOf s key).ValueOrder =
      (lookupField s.Fields (fmtFieldName key)).ValueOrder := by
  unfold statOf
  split
  · rfl
  · rename_i h
    rw [lookupField_not_hasKey _ _ (by simpa using h)]
    rfl

/-- What one observation does to the probe state of its field: either
nothing, or a probeValue insertion of one value string. -/
theorem PB_values_valueOrder (v : JValue) (f : FieldStat) :
    ((processValueBody v f).Values = f.Values ∧
      (processValueBody v f).ValueOrder = f.ValueOrder) ∨
    (∃ val, (processValueBody v f).Values = bump f.Values val ∧
      (processValueBody v f).ValueOrder =
        (if hasKey f.Values val = true then f.ValueOrder
         else f.ValueOrder ++ [val])) := by
  cases v with
  | arr elems =>
    cases elems with
    | nil => exact Or.inl ⟨rfl, rfl⟩
    | cons v0 vs =>
      left
      constructor
      · simp only [processValueBody]
        split <;> rfl
      · simp only [processValueBody]
        split <;> rfl
  | obj fs => exact Or.inl ⟨rfl, rfl⟩
  | str sv =>
    simp only [processValueBody]
    split
    · right
      exact ⟨sv, probeValue_Values _ _, probeValue_ValueOrder _ _⟩
    · left
      exact ⟨rfl, rfl⟩
  | num x =>
    simp only [processValueBody]
    split
    · right
      exact ⟨intValStr x, probeValue_Values _ _, probeValue_ValueOrder _ _⟩
    · left
      exact ⟨rfl, rfl⟩
  | bool b =>
    simp only [processValueBody]
    right
    exact ⟨if b then "true" else "false", probeValue_Values _ _,
      probeValue_ValueOrder _ _⟩
  | null => exact Or.inl ⟨rfl, rfl⟩

/-- The string branch of ProcessValue respects the 100-entry cap. -/
theorem PB_Values_str (sv : String) (f : FieldStat) :
    (processValueBody (.str sv) f).Values =
      if f.Values.length < 100 then bump f.Values sv else f.Values := by
  simp only [processValueBody]
  split
  · rw [probeValue_Values]
  · rfl

set_option maxRecDepth 8000 in
/-- Claim C8 counterexample: 101 numeric observations with distinct small
integer values push the Values probe of one field to 101 distinct
entries: the 100-entry cap guards only the string branch of
ProcessValue. -/
theorem claim_C8_counterexample :
    (fieldValues (processObsList NewStructStats c8obs) "V").length = 101 ∧
    100 < (fieldValues (processObsList NewStructStats c8obs) "V").length ∧
    (∀ kv ∈ c8obs, isStrValue kv.2 = false) := by
  refine ⟨by decide, by decide, by decide⟩

/-- Claim C8, amended: the fixed 100-entry bound holds for runs whose
scalar observations are all strings (the capped branch); the numeric and
boolean branches bypass the cap, so mixed scalar runs can exceed it (see
the counterexample); and the ValueOrder list always records exactly the
distinct probed values, without duplicates, extended only at its end as
observations arrive (first-seen order). -/
theorem claim_C8_amended :
    (∀ obs : List (String × JValue), (∀ kv ∈ obs, isStrValue kv.2 = true) →
      ∀ fn, (fieldValues (processObsList NewStructStats obs) fn).length ≤ 100) ∧
    (∀ (obs : List (String × JValue)) (fn : String),
      (fieldValueOrder (processObsList NewStructStats obs) fn).Nodup ∧
      (∀ val, val ∈ fieldValueOrder (processObsList NewStructStats obs) fn ↔
        hasKey (fieldValues (processObsList NewStructStats obs) fn) val = true)) ∧
    (∀ (s : StructStats) (obs : List (String × JValue)) (fn : String), ∃ ext,
      fieldValueOrder (processObsList s obs) fn = fieldValueOrder s fn ++ ext) := by
  refine ⟨?_, ?_, ?_⟩
  · -- string-only runs respect the cap
    suffices h : ∀ (obs : List (String × JValue)) (s : StructStats),
        (∀ kv ∈ obs, isStrValue kv.2 = true) →
        (∀ fn, (lookupField s.Fields fn).Values.length ≤ 100) →
        ∀ fn, (lookupField (processObsList s obs).Fields fn).Values.length ≤ 100 by
      intro obs hstr fn
      refine h obs NewStructStats hstr ?_ fn
      intro fn2
      simp [NewStructStats, lookupField, newFieldStat]
    intro obs
    induction obs with
    | nil => intro s _ hs fn; exact hs fn
    | cons kv rest ih =>
      intro s hstr hs fn
      have hstep : processObsList s (kv :: rest) =
          processObsList (ProcessValue s kv.1 kv.2) rest := rfl
      rw [hstep]
      refine ih _ (fun q hq => hstr q (List.mem_cons_of_mem _ hq)) ?_ fn
      intro fn2
      by_cases hfn2 : fn2 = fmtFieldName kv.1
      · subst hfn2
        rw [lookupField_ProcessValue_self]
        obtain ⟨sv, hsv⟩ : ∃ sv, kv.2 = .str sv := by
          have := hstr kv (List.mem_cons_self _ _)
          cases hv : kv.2 <;> rw [hv] at this <;> simp [isStrValue] at this
          rename_i sv
          exact ⟨sv, rfl⟩
        rw [hsv, PB_Values_str]
        have hSV : ({ statOf s kv.1 with
            TotalCount := (statOf s kv.1).TotalCount + 1 } : FieldStat).Values =
            (lookupField s.Fields (fmtFieldName kv.1)).Values := statOf_Values s kv.1
        rw [hSV]
        split
        · rename_i hlt
          rw [bump_length]
          split
          · exact hs (fmtFieldName kv.1)
          · omega
        · exact hs (fmtFieldName kv.1)
      · rw [lookupField_ProcessValue_other _ _ _ _ hfn2]
        exact hs fn2
  · -- Nodup and key-set characterization of ValueOrder
    suffices h : ∀ (obs : List (String × JValue)) (s : StructStats),
        (∀ fn, (lookupField s.Fields fn).ValueOrder.Nodup ∧
          (∀ val, val ∈ (lookupField s.Fields fn).ValueOrder ↔
            hasKey (lookupField s.Fields fn).Values val = true)) →
        ∀ fn, (lookupField (processObsList s obs).Fields fn).ValueOrder.Nodup ∧
          (∀ val, val ∈ (lookupField (processObsList s obs).Fields fn).ValueOrder ↔
            hasKey (lookupField (processObsList s obs).Fields fn).Values val = true) by
      intro obs fn
      refine h obs NewStructStats ?_ fn
      intro fn2
      constructor
      · simp [NewStructStats, lookupField, newFieldStat]
      · intro val
        simp [NewStructStats, lookupField, newFieldStat, hasKey]
    intro obs
    induction obs with
    | nil => intro s hs fn; exact hs fn
    | cons kv rest ih =>
      intro s hs fn
      have hstep : processObsList s (kv :: rest) =
          processObsList (ProcessValue s kv.1 kv.2) rest := rfl
      rw [hstep]
      refine ih _ ?_ fn
      intro fn2
      by_cases hfn2 : fn2 = fmtFieldName kv.1
      · subst hfn2
        rw [lookupField_ProcessValue_self]
        set f := ({ statOf s kv.1 with
          TotalCount := (statOf s kv.1).TotalCount + 1 } : FieldStat) with hf
        have hfV : f.Values = (lookupField s.Fields (fmtFieldName kv.1)).Values :=
          statOf_Values s kv.1
        have hfO : f.ValueOrder =
            (lookupField s.Fields (fmtFieldName kv.1)).ValueOrder :=
          statOf_ValueOrder s kv.1
        have hbase := hs (fmtFieldName kv.1)
        rcases PB_values_valueOrder kv.2 f with ⟨hV, hO⟩ | ⟨val, hV, hO⟩
        · rw [hV, hO, hfV, hfO]
          exact hbase
        · rw [hV, hO, hfV, hfO]
          by_cases hk : hasKey (lookupField s.Fields (fmtFieldName kv.1)).Values val = true
          · rw [if_pos hk]
            constructor
            · exact hbase.1
            · intro w
              rw [hasKey_bump]
              constructor
              · intro hw
                simp [(hbase.2 w).1 hw]
              · intro hw
                rcases Bool.or_eq_true_iff.1 hw with h1 | h1
                · exact (hbase.2 w).2 h1
                · simp only [beq_iff_eq] at h1
                  exact (hbase.2 w).2 (h1 ▸ hk)
          · rw [if_neg hk]
            constructor
            · rw [← List.concat_eq_append]
              refine List.Nodup.concat ?_ hbase.1
              intro hmem
              exact hk ((hbase.2 val).1 hmem)
            · intro w
              rw [hasKey_bump, List.mem_append, List.mem_singleton]
              constructor
              · rintro (hw | rfl)
                · simp [(hbase.2 w).1 hw]
                · simp
              · intro hw
                rcases Bool.or_eq_true_iff.1 hw with h1 | h1
                · exact Or.inl ((hbase.2 w).2 h1)
                · simp only [beq_iff_eq] at h1
                  exact Or.inr h1.symm
      · rw [lookupField_ProcessValue_other _ _ _ _ hfn2]
        exact hs fn2
  · -- ValueOrder is append-only across further observations
    intro s obs
    induction obs generalizing s with
    | nil =>
      intro fn
      exact ⟨[], by simp [processObsList]⟩
    | cons kv rest ih =>
      intro fn
      have hstep : processObsList s (kv :: rest) =
          processObsList (ProcessValue s kv.1 kv.2) rest := rfl
      rw [hstep]
      obtain ⟨e1, he1⟩ : ∃ e1,
          fieldValueOrder (ProcessValue s kv.1 kv.2) fn = fieldValueOrder s fn ++ e1 := by
        by_cases hfn : fn = fmtFieldName kv.1
        · subst hfn
          unfold fieldValueOrder
          rw [lookupField_ProcessValue_self]
          set f := ({ statOf s kv.1 with
            TotalCount := (statOf s kv.1).TotalCount + 1 } : FieldStat) with hf
          have hfO : f.ValueOrder =
              (lookupField s.Fields (fmtFieldName kv.1)).ValueOrder :=
            statOf_ValueOrder s kv.1
          rcases PB_values_valueOrder kv.2 f with ⟨_, hO⟩ | ⟨val, _, hO⟩
          · exact ⟨[], by rw [hO, hfO]; simp⟩
          · rw [hO]
            split
            · exact ⟨[], by rw [hfO]; simp⟩
            · exact ⟨[val], by rw [hfO]⟩
        · unfold fieldValueOrder
          rw [lookupField_ProcessValue_other _ _ _ _ hfn]
          exact ⟨[], by simp⟩
      obtain ⟨e2, he2⟩ := ih (ProcessValue s kv.1 kv.2) fn
      exact ⟨e1 ++ e2, by rw [he2, he1, List.append_assoc]⟩

/-- Witness for the amended C8 on a one-string run. -/
theorem claim_C8_amended_witness :
    (fieldValues (processObsList NewStructStats [("v", .str "x")]) "V").length ≤ 100 :=
  claim_C8_amended.1 [("v", .str "x")] (by decide) "V"


/-- Claim C4 exhibit: the signature census groups P and S into one
two-member plain group (and P alone into a nullable group); when the Go
map iteration happens to process the nullable group first, the rewrite of
P corrupts the plain group representative (its type is no longer struct
or *struct), createExtractedType refuses it, and S - a candidate record
in a group with more than one member - is left inline with its children
and no reference, while under the opposite order it is extracted.  This
contradicts the claim (and the census-before-rewrite rationale of the
code) on some iteration orders. -/
theorem claim_C4 :
    (groupSigs (collectSigsAux c4arena 6 0) =
      [(c4sig, [1, 5]), (c4sig ++ ":nullable", [1])]) ∧
    ((groupSigs (collectSigsAux c4arena 6 0)).Perm c4adverse) ∧
    ((getNode (extractRepeatedStructs c4hash "Root" 6 c4arena c4adverse).1 5).ExtractedTypeName
        = "" ∧
      (getNode (extractRepeatedStructs c4hash "Root" 6 c4arena c4adverse).1 5).Children
        = [6, 7, 8]) ∧
    ((getNode (extractRepeatedStructs c4hash "Root" 6 c4arena c4adverse).1 1).ExtractedTypeName
        = "*RootStructCAFE0001") ∧
    ((getNode (extractRepeatedStructs c4hash "Root" 6 c4arena
        [(c4sig, [1, 5]), (c4sig ++ ":nullable", [1])]).1 5).ExtractedTypeName
        = "RootStructCAFE0001") := by
  refine ⟨by decide, by decide, ⟨by decide, by decide⟩, by decide, by decide⟩


/-- Witness instantiation for the amended C9 on a one-array run. -/
theorem claim_C9_amended_witness :
    (resolveField 1 ⟨"Foo", ""⟩
        (lookupField (processObsList NewStructStats
          [("f", .arr [.str "a"])]).Fields "F")).Repeated = true ↔
      ∃ kv ∈ [(("f" : String), JValue.arr [.str "a"])],
        fmtFieldName kv.1 = "F" ∧ isArrValue kv.2 = true :=
  claim_C9_amended.2.2 [("f", .arr [.str "a"])] "F" 1 ⟨"Foo", ""⟩

end JsonToStruct
